import Mathlib

/-!
The experimental C indexer of mwetoolkit.

A shallow embedding of `experimental/readline.c` and `experimental/index.c`
(the line source and the driver), together with the suffix-array engine that
`include/suffixarray.h` declares.

Bytes are modelled as `Char`, memory blocks as `List Char`, the standard input
as the list of bytes still unread.
-/

namespace Mwetoolkit

/-! ## C strings -/

/-- The byte that terminates a C string. -/
def NUL : Char := Char.ofNat 0

/-- The C string a `char *` designates: the bytes of the block before the first NUL. -/
def cstr (mem : List Char) : List Char :=
  mem.takeWhile (fun c => c != NUL)

/-- The length `strlen(str)` of the C library gives. -/
def strlen (str : List Char) : Nat :=
  (cstr str).length

/-- Conversion of a `size_t` value to `int` (32 bits, two's complement). -/
def toInt32 (n : Nat) : Int :=
  if n % 2 ^ 32 < 2 ^ 31 then ((n % 2 ^ 32 : Nat) : Int) else ((n % 2 ^ 32 : Nat) : Int) - 2 ^ 32

/-- Modelled from the spec: the `alloc(n, type)` macro of `base.h`, which is not
among the sources. It is the fail-fast allocation of the spec: a block of `n`
elements, or no return at all (`none`) when the request cannot be satisfied, as
for a negative `int` count, which converts to an enormous `size_t`. -/
def alloc (n : Int) : Option (List Char) :=
  if 0 ≤ n then some (List.replicate n.toNat NUL) else none

/-- The C library call `strcpy(dst, src)`: copies the string at `src`, its NUL
included, to the start of `dst`; `none` when `dst` is too small (undefined
behaviour in C). -/
def strcpy (dst src : List Char) : Option (List Char) :=
  let s := cstr src ++ [NUL]
  if s.length ≤ dst.length then some (s ++ dst.drop s.length) else none

/-- The function `copystring` of `readline.c`: `int length = strlen(str);
new = alloc(length+1, char); strcpy(new, str); return new;`.
`length + 1` is computed in `int`; an overflowing sum gives no result. -/
def copystring (str : List Char) : Option (List Char) :=
  let length : Int := toInt32 (strlen str)
  if length + 1 < 2 ^ 31 then
    match alloc (length + 1) with
    | some new => strcpy new str
    | none => none
  else none

/-! ## The line source -/

/-- The bytes one `fgets` call takes from the stream: at most `n`, stopping
after a newline or at end of file. Returns the bytes taken and the rest. -/
def fgetsRead : Nat → List Char → List Char × List Char
  | 0, stream => ([], stream)
  | _ + 1, [] => ([], [])
  | n + 1, c :: stream =>
    if c = '\n' then ([c], stream)
    else ((c :: (fgetsRead n stream).1), (fgetsRead n stream).2)

/-- The C library call `fgets(buffer, size, stream)`. The result is `none` for a
null pointer (end of file before any byte, or `size ≤ 0`), else the buffer
after the call; the second component is the stream after the call. -/
def fgets (buffer : List Char) (size : Nat) (stream : List Char) :
    Option (List Char) × List Char :=
  if size = 0 then (none, stream)
  else if size = 1 then (some (NUL :: buffer.drop 1), stream)
  else
    let r := fgetsRead (size - 1) stream
    if r.1 = [] then (none, stream)
    else (some (r.1 ++ NUL :: buffer.drop (r.1.length + 1)), r.2)

/-- The `for` loop of `readline`: `for (s=buffer; *s; s++) if (*s=='\n') *s = '\0';`
run from the position `s` on. -/
def readlineLoop : List Char → List Char
  | [] => []
  | c :: rest =>
    if c = NUL then c :: rest
    else (if c = '\n' then NUL else c) :: readlineLoop rest

/-- The result of one `readline` call: the pointer returned (`none` for NULL,
else the contents of the static buffer it points to), the static buffer and the
stream after the call. -/
structure ReadlineResult where
  line : Option (List Char)
  buffer : List Char
  stream : List Char
  deriving DecidableEq, Repr

/-- The function `readline` of `readline.c`. `buffer` is the static buffer of
`LINE_BUFFER_LEN` bytes; the constant comes from `base.h`, not among the
sources, hence a parameter. It is passed to `fgets` as an `int`. -/
def readline (LINE_BUFFER_LEN : Nat) (buffer stream : List Char) : ReadlineResult :=
  match fgets buffer LINE_BUFFER_LEN stream with
  | (none, stream1) => { line := none, buffer := buffer, stream := stream1 }
  | (some buffer1, stream1) =>
    { line := some (readlineLoop buffer1), buffer := readlineLoop buffer1, stream := stream1 }

/-! ## The driver -/

/-- What the driver writes to standard error. -/
inductive Message where
  | usage (prog : Option (List Char))
  | corpusRead (words : Nat)
  | sorting
  | sortingDone
  | done
  deriving DecidableEq, Repr

/-- The engine operations `index.c` calls, over a state `σ` that holds the
engine and the files it writes. A `char *` argument that may be NULL is an
`Option`. `used` reads the field `suf->used`. -/
structure EngineOps (σ : Type) where
  make_suffixarray : σ → σ
  suffixarray_append_word : σ → List Char → σ
  suffixarray_sort : σ → σ
  save_suffix_array : σ → Option (List Char) → σ
  save_symbols_to_file : σ → Option (List Char) → σ
  used : σ → Nat

/-- How a run of the driver ends: the exit status, what was written to standard
error, the engine state and the unread part of standard input. -/
structure Outcome (σ : Type) where
  exit : Nat
  stderr : List Message
  world : σ
  stdin : List Char
  deriving DecidableEq, Repr

/-- Modelled from the spec: the exit status of the `error(...)` macro of
`base.h`, which is not among the sources. The spec has it write its message and
end the process with a nonzero status. -/
def ERROR_EXIT : Nat := 1

/-- Modelled from the spec: the `error(...)` macro of `base.h`, which is not
among the sources: the message goes to standard error and the process ends at
once with a nonzero status, so nothing after the call runs. -/
def error {σ : Type} (msg : Message) (world : σ) (stdin : List Char) : Outcome σ :=
  { exit := ERROR_EXIT, stderr := [msg], world := world, stdin := stdin }

/-- The loop `while (line = readline(stdin)) { newsym = copystring(line);
suffixarray_append_word(suf, newsym); }` of `main`. The state is the static
buffer of `readline`, the unread input and the engine; `none` when the fuel
runs out or `copystring` does not return. -/
def mainLoop {σ : Type} (ops : EngineOps σ) (LINE_BUFFER_LEN : Nat) :
    Nat → List Char → List Char → σ → Option (σ × List Char × List Char)
  | 0, _, _, _ => none
  | fuel + 1, buffer, stdin, suf =>
    match (readline LINE_BUFFER_LEN buffer stdin).line with
    | none => some (suf, (readline LINE_BUFFER_LEN buffer stdin).buffer,
        (readline LINE_BUFFER_LEN buffer stdin).stream)
    | some line =>
      match copystring line with
      | none => none
      | some newsym =>
        mainLoop ops LINE_BUFFER_LEN fuel (readline LINE_BUFFER_LEN buffer stdin).buffer
          (readline LINE_BUFFER_LEN buffer stdin).stream
          (ops.suffixarray_append_word suf (cstr newsym))

/-- The function `main` of `index.c`. `argv` is the argument vector (`argc` its length,
`argv[argc]` NULL), `world` the state before the run. -/
def main {σ : Type} (ops : EngineOps σ) (LINE_BUFFER_LEN : Nat) (fuel : Nat) (world : σ)
    (argv : List (List Char)) (stdin : List Char) : Option (Outcome σ) :=
  let argc := argv.length
  if argc ≠ 2 then
    some (error (Message.usage argv[0]?) world stdin)
  else
    let suf := ops.make_suffixarray world
    match mainLoop ops LINE_BUFFER_LEN fuel (List.replicate LINE_BUFFER_LEN NUL) stdin suf with
    | none => none
    | some (suf1, _, stdin1) =>
      let suf2 := ops.suffixarray_sort suf1
      let suf3 := ops.save_suffix_array suf2 argv[1]?
      let suf4 := ops.save_symbols_to_file suf3 argv[1]?
      some { exit := 0,
             stderr := [Message.corpusRead (ops.used suf1), Message.sorting,
                        Message.sortingDone, Message.done],
             world := suf4, stdin := stdin1 }

/-- One call of the engine interface, as the driver makes it. -/
inductive Call where
  | make_suffixarray
  | suffixarray_append_word (word : List Char)
  | suffixarray_sort
  | save_suffix_array (basepath : Option (List Char))
  | save_symbols_to_file (basepath : Option (List Char))
  deriving DecidableEq, Repr

/-- The word of an append call. -/
def Call.word? : Call → Option (List Char)
  | Call.suffixarray_append_word w => some w
  | _ => none

/-- The words appended in a log of calls, in order. -/
def appendedWords (log : List Call) : List (List Char) :=
  log.filterMap Call.word?

/-- The engine that only records the calls made on it. -/
def recordingOps : EngineOps (List Call) where
  make_suffixarray log := log ++ [Call.make_suffixarray]
  suffixarray_append_word log word := log ++ [Call.suffixarray_append_word word]
  suffixarray_sort log := log ++ [Call.suffixarray_sort]
  save_suffix_array log basepath := log ++ [Call.save_suffix_array basepath]
  save_symbols_to_file log basepath := log ++ [Call.save_symbols_to_file basepath]
  used log := (appendedWords log).length

/-- The lines of an input: the runs of bytes between newlines; a last line need
not end in a newline. -/
def inputLines : List Char → List (List Char)
  | [] => []
  | c :: s =>
    if c = '\n' then [] :: inputLines s
    else
      match inputLines s with
      | [] => [[c]]
      | l :: ls => (c :: l) :: ls

/-- The string `readline` leaves at the start of its buffer for the bytes one
`fgets` call took: those before the first NUL or newline. -/
def lineText (taken : List Char) : List Char :=
  taken.takeWhile (fun c => c != NUL && c != '\n')

/-- The strings successive `readline` calls yield on a stream when `fgets`
takes at most `n` bytes a call; `fuel` bounds the number of calls. -/
def chunkWords (n : Nat) : Nat → List Char → List (List Char)
  | 0, _ => []
  | _ + 1, [] => []
  | fuel + 1, c :: s =>
    lineText (fgetsRead n (c :: s)).1 :: chunkWords n fuel (fgetsRead n (c :: s)).2

/-- Every line of the input, its newline included, fits one `fgets` call on a
buffer of `LINE_BUFFER_LEN` bytes: it has fewer than `LINE_BUFFER_LEN - 1` bytes. -/
def LinesFit (LINE_BUFFER_LEN : Nat) (stdin : List Char) : Prop :=
  ∀ l ∈ inputLines stdin, l.length + 1 < LINE_BUFFER_LEN

/-- The words the driver appends on an input, in order: the words of the
append calls the recording engine logs in a run of `main`; `none` when the run
does not end within the fuel. -/
def driverWords (LINE_BUFFER_LEN fuel : Nat) (argv : List (List Char)) (stdin : List Char) :
    Option (List (List Char)) :=
  (main recordingOps LINE_BUFFER_LEN fuel [] argv stdin).map (fun o => appendedWords o.world)

/-- A part of the input that ends where a line ends: it is empty or its last
byte is a newline, so what follows it starts a line. -/
def AtLineStart (pre : List Char) : Prop :=
  pre = [] ∨ ∃ p, pre = p ++ ['\n']

/-- Splits at whitespace, `current` being the word read so far, last byte first. -/
def splitWhitespace (current : List Char) : List Char → List (List Char)
  | [] => if current = [] then [] else [current.reverse]
  | c :: s =>
    if c.isWhitespace then
      (if current = [] then splitWhitespace [] s else current.reverse :: splitWhitespace [] s)
    else splitWhitespace (c :: current) s

/-- The whitespace-delimited words of an input, the reading of "word" in the
specification ("input is a stream of whitespace-delimited words"). -/
def whitespaceWords (stdin : List Char) : List (List Char) :=
  splitWhitespace [] stdin

/-! ## The suffix-array engine

`include/suffixarray.h` declares the engine; its implementation and
`symboltable.h` are not among the sources, so the operations below follow the
specification of the engine. -/

/-- Modelled from the spec: the symbol table of `symboltable.h`, which is not
among the sources: a mapping between word strings and integer codes, built as
new words are seen. The code of a word is its index in `names`. -/
structure symboltable_t where
  names : List (List Char)
  deriving DecidableEq, Repr

/-- The index of the first occurrence of a word in a list of names (its length
if there is none). -/
def codeOf (word : List Char) : List (List Char) → Nat
  | [] => 0
  | name :: names => if name = word then 0 else codeOf word names + 1

/-- Modelled from the spec: `intern(word) -> code` of the symbol table, which is
not among the sources: the existing code if the word was seen before, else a
new code that is recorded. -/
def intern (t : symboltable_t) (word : List Char) : Nat × symboltable_t :=
  if word ∈ t.names then (codeOf word t.names, t)
  else (t.names.length, { names := t.names ++ [word] })

/-- Modelled from the spec: `resolve(code) -> word` of the symbol table, which
is not among the sources: the inverse lookup. -/
def resolve (t : symboltable_t) (code : Nat) : Option (List Char) :=
  t.names[code]?

/-- The struct `suffixarray_t` of `suffixarray.h`. The two buffers hold
`allocated` entries each, of which the first `used` are in use. -/
structure suffixarray_t where
  corpus : List Nat
  suffix : List Nat
  symboltable : symboltable_t
  allocated : Nat
  used : Nat
  deriving DecidableEq, Repr

/-- Modelled from the spec: the starting capacity of `make`, "small nonzero";
the implementation is not among the sources. -/
def INITIAL_ALLOCATION : Nat := 4

/-- Modelled from the spec: `make_suffixarray`, declared in `suffixarray.h`,
implementation not among the sources: an initially-empty encoded corpus and
suffix array with a small nonzero starting capacity, and a symbol table. -/
def make_suffixarray : suffixarray_t :=
  { corpus := List.replicate INITIAL_ALLOCATION 0
    suffix := List.replicate INITIAL_ALLOCATION 0
    symboltable := { names := [] }
    allocated := INITIAL_ALLOCATION
    used := 0 }

/-- Modelled from the spec: the growth step of the buffers (implementation not
among the sources): the capacity doubles and the contents are preserved. -/
def grow (suf : suffixarray_t) : suffixarray_t :=
  { suf with
    corpus := suf.corpus ++ List.replicate suf.allocated 0
    suffix := suf.suffix ++ List.replicate suf.allocated 0
    allocated := 2 * suf.allocated }

/-- Modelled from the spec: `suffixarray_append_word`, declared in
`suffixarray.h`, implementation not among the sources: looks up or inserts the
word in the symbol table, grows the buffer if at capacity, writes the code at
position `used` and increments `used`. -/
def suffixarray_append_word (suf : suffixarray_t) (word : List Char) : suffixarray_t :=
  let r := intern suf.symboltable word
  let suf1 := if suf.allocated ≤ suf.used then grow suf else suf
  { suf1 with
    corpus := suf1.corpus.set suf1.used r.1
    symboltable := r.2
    used := suf1.used + 1 }

/-- The encoded corpus: the entries of the corpus buffer in use. -/
def encodedCorpus (suf : suffixarray_t) : List Nat :=
  suf.corpus.take suf.used

/-- The suffix of the encoded corpus that starts at a position. -/
def suffixAt (suf : suffixarray_t) (pos : Nat) : List Nat :=
  (encodedCorpus suf).drop pos

/-- Modelled from the spec: the symbol-by-symbol comparison of two suffixes
(implementation not among the sources): the first differing pair decides, the
lower code being smaller; a suffix that ends first is strictly smaller. The
result is negative, zero or positive. -/
def compareSymbols : List Nat → List Nat → Int
  | [], [] => 0
  | [], _ :: _ => -1
  | _ :: _, [] => 1
  | a :: as, b :: bs =>
    if a < b then -1 else if b < a then 1 else compareSymbols as bs

/-- Modelled from the spec: `suffixarray_compare`, declared in `suffixarray.h`,
implementation not among the sources: compares the two symbol subsequences
starting at `pos1` and `pos2` and extending to the end of the corpus. -/
def suffixarray_compare (suf : suffixarray_t) (pos1 pos2 : Nat) : Int :=
  compareSymbols (suffixAt suf pos1) (suffixAt suf pos2)

/-- Merge of two ascending lists under `le`; `fuel` bounds the steps. -/
def mergeBy (le : Nat → Nat → Bool) : Nat → List Nat → List Nat → List Nat
  | 0, xs, ys => xs ++ ys
  | _ + 1, [], ys => ys
  | _ + 1, x :: xs, [] => x :: xs
  | fuel + 1, x :: xs, y :: ys =>
    if le x y then x :: mergeBy le fuel xs (y :: ys)
    else y :: mergeBy le fuel (x :: xs) ys

/-- Modelled from the spec: the comparison sort behind `sort()` (implementation
not among the sources): a merge sort driven by a comparison callback, of
O(n log n) comparisons; `fuel` bounds the depth of the recursion. -/
def sortBy (le : Nat → Nat → Bool) : Nat → List Nat → List Nat
  | 0, l => l
  | fuel + 1, l =>
    if l.length < 2 then l
    else
      mergeBy le l.length (sortBy le fuel (l.take ((l.length + 1) / 2)))
        (sortBy le fuel (l.drop ((l.length + 1) / 2)))

/-- Modelled from the spec: `suffixarray_sort`, declared in `suffixarray.h`,
implementation not among the sources: initialises the suffix array to the
identity permutation of the corpus positions, then reorders it into ascending
order under `suffixarray_compare`. -/
def suffixarray_sort (suf : suffixarray_t) : suffixarray_t :=
  { suf with
    suffix := sortBy (fun a b => decide (suffixarray_compare suf a b ≤ 0)) suf.used
        (List.range suf.used) ++ suf.suffix.drop suf.used }

/-- The suffix array: the entries of the suffix buffer in use. -/
def suffixArray (suf : suffixarray_t) : List Nat :=
  suf.suffix.take suf.used

/-- The error kinds of the engine. -/
inductive EngineError where
  | AllocationFailure
  | CorruptIndex
  | UnknownSymbol
  deriving DecidableEq, Repr

/-- Modelled from the spec: the width in bytes of the fixed-width integers of
the persisted format (implementation not among the sources). -/
def WORD_BYTES : Nat := 8

/-- Modelled from the spec: one fixed-width integer of the persisted format,
least significant byte first. -/
def encodeWord : Nat → Nat → List Nat
  | 0, _ => []
  | width + 1, n => n % 256 :: encodeWord width (n / 256)

/-- The integer a run of bytes encodes, least significant byte first. -/
def decodeWord : List Nat → Nat
  | [] => 0
  | b :: bs => b + 256 * decodeWord bs

/-- The values of an array, each as a fixed-width integer, one after the other. -/
def encodeValues : List Nat → List Nat
  | [] => []
  | x :: xs => encodeWord WORD_BYTES x ++ encodeValues xs

/-- Reads `count` fixed-width integers; `none` when the bytes end before that. -/
def decodeValues : Nat → List Nat → Option (List Nat)
  | 0, _ => some []
  | count + 1, bytes =>
    if bytes.length < WORD_BYTES then none
    else
      match decodeValues count (bytes.drop WORD_BYTES) with
      | none => none
      | some xs => some (decodeWord (bytes.take WORD_BYTES) :: xs)

/-- One array as persisted: its count, then that many values. -/
def writeArray (used : Nat) (buffer : List Nat) : List Nat :=
  encodeWord WORD_BYTES used ++ encodeValues (buffer.take used)

/-- Reads one persisted array: the count, then that many values. -/
def readArray (bytes : List Nat) : Except EngineError (List Nat) :=
  if bytes.length < WORD_BYTES then Except.error EngineError.CorruptIndex
  else
    match decodeValues (decodeWord (bytes.take WORD_BYTES)) (bytes.drop WORD_BYTES) with
    | none => Except.error EngineError.CorruptIndex
    | some xs => Except.ok xs

/-- Modelled from the spec: `write_suffix_array`, declared in `suffixarray.h`,
implementation not among the sources: writes the encoded corpus (the `used`
count, then that many symbol codes) and the suffix array (the `used` count, then
that many positions) to two byte sinks. The result is (corpus file, suffix file). -/
def write_suffix_array (suf : suffixarray_t) : List Nat × List Nat :=
  (writeArray suf.used suf.corpus, writeArray suf.used suf.suffix)

/-- Modelled from the spec: `read_suffix_array`, declared in `suffixarray.h`,
implementation not among the sources: reads the counts, allocates buffers of
exactly that size and populates them; `CorruptIndex` when a source is truncated
before the declared count of elements, or the two counts disagree. -/
def read_suffix_array (suf : suffixarray_t) (corpusfile suffixfile : List Nat) :
    Except EngineError suffixarray_t :=
  match readArray corpusfile, readArray suffixfile with
  | Except.ok corpus, Except.ok suffix =>
    if corpus.length = suffix.length then
      Except.ok { suf with
        corpus := corpus, suffix := suffix, allocated := corpus.length, used := corpus.length }
    else Except.error EngineError.CorruptIndex
  | _, _ => Except.error EngineError.CorruptIndex

/-- What holds of the engine once the words `ws` were appended to a fresh one:
the buffers are within capacity, the symbol table holds no word twice, and the
code at each position resolves to the word appended there. -/
def Encodes (suf : suffixarray_t) (ws : List (List Char)) : Prop :=
  suf.used = ws.length ∧ suf.used ≤ suf.allocated ∧ suf.corpus.length = suf.allocated
    ∧ 0 < suf.allocated ∧ suf.symboltable.names.Nodup
    ∧ ∀ (i : Nat) (w : List Char), ws[i]? = some w →
        ∃ code, suf.corpus[i]? = some code ∧ resolve suf.symboltable code = some w

/-! ## C strings: lemmas -/

theorem cstr_nil : cstr [] = [] := rfl

theorem cstr_cons (c : Char) (m : List Char) :
    cstr (c :: m) = if c = NUL then [] else c :: cstr m := by
  by_cases h : c = NUL <;> simp [cstr, List.takeWhile_cons, h]

theorem NUL_not_mem_cstr (m : List Char) : NUL ∉ cstr m := by
  induction m with
  | nil => simp [cstr]
  | cons c m ih =>
    rw [cstr_cons]
    by_cases h : c = NUL
    · simp [h]
    · simp only [h, if_false, List.mem_cons, not_or]
      exact ⟨fun e => h e.symm, ih⟩

theorem cstr_append_NUL (s t : List Char) (h : NUL ∉ s) : cstr (s ++ NUL :: t) = s := by
  induction s with
  | nil => simp [cstr_cons]
  | cons c s ih =>
    simp only [List.mem_cons, not_or] at h
    have hc : c ≠ NUL := fun e => h.1 e.symm
    simp [cstr_cons, hc, ih h.2]

theorem cstr_of_not_mem (s : List Char) (h : NUL ∉ s) : cstr s = s := by
  induction s with
  | nil => rfl
  | cons c s ih =>
    simp only [List.mem_cons, not_or] at h
    have hc : c ≠ NUL := fun e => h.1 e.symm
    simp [cstr_cons, hc, ih h.2]

theorem cstr_length_le (m : List Char) : (cstr m).length ≤ m.length := by
  induction m with
  | nil => simp [cstr]
  | cons c m ih =>
    rw [cstr_cons]
    by_cases h : c = NUL
    · simp [h]
    · simp [h]; exact ih

theorem toInt32_of_lt (n : Nat) (h : n < 2 ^ 31) : toInt32 n = (n : Int) := by
  have h1 : n % 2 ^ 32 = n := Nat.mod_eq_of_lt (by omega)
  unfold toInt32
  rw [h1, if_pos h]

/-- The call `copystring(str)` returns a fresh block holding the same string, whenever the
length of the string plus one fits an `int`. -/
theorem copystring_eq (str : List Char) (h : strlen str + 1 < 2 ^ 31) :
    copystring str = some (cstr str ++ [NUL]) := by
  have h1 : toInt32 (strlen str) = (strlen str : Int) := toInt32_of_lt _ (by omega)
  have h2 : ((strlen str : Int) + 1 < 2 ^ 31) := by
    have : ((strlen str + 1 : Nat) : Int) < ((2 ^ 31 : Nat) : Int) := by exact_mod_cast h
    simpa using this
  have h3 : (0 : Int) ≤ (strlen str : Int) + 1 := by omega
  have h4 : ((strlen str : Int) + 1).toNat = strlen str + 1 := by omega
  simp only [copystring, h1, h2, if_true, alloc, h3, h4]
  simp [strcpy, strlen]

theorem cstr_copystring (str : List Char) (h : strlen str + 1 < 2 ^ 31) :
    (copystring str).map cstr = some (cstr str) := by
  rw [copystring_eq str h]
  simp [cstr_append_NUL _ _ (NUL_not_mem_cstr str)]

/-! ## The line source: lemmas -/

theorem fgetsRead_nil (n : Nat) : fgetsRead n [] = ([], []) := by
  cases n <;> rfl

theorem fgetsRead_length_le (n : Nat) (s : List Char) : (fgetsRead n s).1.length ≤ n := by
  induction n generalizing s with
  | zero => simp [fgetsRead]
  | succ n ih =>
    cases s with
    | nil => simp [fgetsRead]
    | cons c s =>
      by_cases h : c = '\n'
      · simp [fgetsRead, h]
      · simp [fgetsRead, h]; exact ih s

theorem fgetsRead_rest_length (n : Nat) (c : Char) (s : List Char) :
    (fgetsRead (n + 1) (c :: s)).2.length ≤ s.length := by
  induction s generalizing n c with
  | nil =>
    by_cases h : c = '\n'
    · simp [fgetsRead, h]
    · simp [fgetsRead, h, fgetsRead_nil]
  | cons d s ih =>
    by_cases h : c = '\n'
    · simp [fgetsRead, h]
    · cases n with
      | zero => simp [fgetsRead, h]
      | succ n =>
        have := ih n d
        simp only [fgetsRead, h, if_false, List.length_cons] at this ⊢
        omega

theorem fgetsRead_ne_nil (n : Nat) (c : Char) (s : List Char) :
    (fgetsRead (n + 1) (c :: s)).1 ≠ [] := by
  by_cases h : c = '\n' <;> simp [fgetsRead, h]

theorem lineText_no_newline (r : List Char) : '\n' ∉ lineText r := by
  intro h
  have := List.mem_takeWhile_imp h
  simp at this

theorem lineText_no_NUL (r : List Char) : NUL ∉ lineText r := by
  intro h
  have := List.mem_takeWhile_imp h
  simp at this

theorem lineText_length_le (r : List Char) : (lineText r).length ≤ r.length := by
  unfold lineText
  exact (List.takeWhile_sublist _).length_le

theorem lineText_append_NUL (r t : List Char) : lineText (r ++ NUL :: t) = lineText r := by
  induction r with
  | nil => simp [lineText, List.takeWhile_cons]
  | cons c r ih =>
    unfold lineText at ih ⊢
    simp only [List.cons_append, List.takeWhile_cons]
    split
    · rw [ih]
    · rfl

/-- The string left by the loop of `readline` ends at the first NUL or newline
of the block it ran over. -/
theorem cstr_readlineLoop (m : List Char) : cstr (readlineLoop m) = lineText m := by
  induction m with
  | nil => rfl
  | cons c m ih =>
    by_cases h0 : c = NUL
    · simp [readlineLoop, h0, cstr_cons, lineText, List.takeWhile_cons]
    · by_cases h1 : c = '\n'
      · subst h1
        simp [readlineLoop, h0, cstr_cons, lineText, List.takeWhile_cons]
      · rw [readlineLoop, if_neg h0, if_neg h1, cstr_cons, if_neg h0, ih]
        simp [lineText, List.takeWhile_cons, h0, h1]

theorem readline_nil (L : Nat) (hL : 2 ≤ L) (buffer : List Char) :
    readline L buffer [] = { line := none, buffer := buffer, stream := [] } := by
  have h0 : L ≠ 0 := by omega
  have h1 : L ≠ 1 := by omega
  simp [readline, fgets, h0, h1, fgetsRead_nil]

theorem readline_cons (L : Nat) (hL : 2 ≤ L) (buffer : List Char) (c : Char) (s : List Char) :
    ∃ b, readline L buffer (c :: s) =
        { line := some b, buffer := b, stream := (fgetsRead (L - 1) (c :: s)).2 } ∧
      cstr b = lineText (fgetsRead (L - 1) (c :: s)).1 := by
  have h0 : L ≠ 0 := by omega
  have h1 : L ≠ 1 := by omega
  obtain ⟨n, hn⟩ : ∃ n, L - 1 = n + 1 := ⟨L - 2, by omega⟩
  have hne : (fgetsRead (L - 1) (c :: s)).1 ≠ [] := by
    rw [hn]; exact fgetsRead_ne_nil n c s
  refine ⟨readlineLoop ((fgetsRead (L - 1) (c :: s)).1 ++
      NUL :: buffer.drop ((fgetsRead (L - 1) (c :: s)).1.length + 1)), ?_, ?_⟩
  · simp [readline, fgets, h0, h1, hne]
  · rw [cstr_readlineLoop, lineText_append_NUL]

/-! ## The driver loop: lemmas -/

theorem mainLoop_nil {σ : Type} (ops : EngineOps σ) (L : Nat) (hL : 2 ≤ L) (fuel : Nat)
    (buffer : List Char) (suf : σ) :
    mainLoop ops L (fuel + 1) buffer [] suf = some (suf, buffer, []) := by
  simp [mainLoop, readline_nil L hL]

/-- One turn of the loop on a non-empty input: the string `readline` yields is
appended and the loop goes on with what `fgets` left. -/
theorem mainLoop_cons {σ : Type} (ops : EngineOps σ) (L : Nat) (hL : 2 ≤ L) (hL2 : L < 2 ^ 31)
    (fuel : Nat) (buffer : List Char) (c : Char) (s : List Char) (suf : σ) :
    ∃ b, mainLoop ops L (fuel + 1) buffer (c :: s) suf =
      mainLoop ops L fuel b (fgetsRead (L - 1) (c :: s)).2
        (ops.suffixarray_append_word suf (lineText (fgetsRead (L - 1) (c :: s)).1)) := by
  obtain ⟨b, hb, hc⟩ := readline_cons L hL buffer c s
  refine ⟨b, ?_⟩
  have hlen : strlen b + 1 < 2 ^ 31 := by
    have h1 := lineText_length_le (fgetsRead (L - 1) (c :: s)).1
    have h2 := fgetsRead_length_le (L - 1) (c :: s)
    unfold strlen
    rw [hc]
    omega
  have hcopy := copystring_eq b hlen
  have hcs : cstr (cstr b ++ [NUL]) = cstr b := cstr_append_NUL _ _ (NUL_not_mem_cstr b)
  rw [mainLoop]
  simp only [hb, hcopy, hcs]
  rw [hc]

/-- The loop ends once the input is used up, having appended the strings
`readline` yielded, in order. -/
theorem mainLoop_eq {σ : Type} (ops : EngineOps σ) (L : Nat) (hL : 2 ≤ L) (hL2 : L < 2 ^ 31)
    (fuel : Nat) (buffer stdin : List Char) (suf : σ) (hfuel : stdin.length < fuel) :
    ∃ b, mainLoop ops L fuel buffer stdin suf =
      some ((chunkWords (L - 1) fuel stdin).foldl ops.suffixarray_append_word suf, b, []) := by
  induction fuel generalizing buffer stdin suf with
  | zero => omega
  | succ fuel ih =>
    cases stdin with
    | nil => exact ⟨buffer, by simp [mainLoop_nil ops L hL, chunkWords]⟩
    | cons c s =>
      obtain ⟨b, hb⟩ := mainLoop_cons ops L hL hL2 fuel buffer c s suf
      obtain ⟨n, hn⟩ : ∃ n, L - 1 = n + 1 := ⟨L - 2, by omega⟩
      have hrest : (fgetsRead (L - 1) (c :: s)).2.length < fuel := by
        have := fgetsRead_rest_length n c s
        rw [← hn] at this
        simp only [List.length_cons] at hfuel
        omega
      obtain ⟨b2, hb2⟩ := ih b (fgetsRead (L - 1) (c :: s)).2
        (ops.suffixarray_append_word suf (lineText (fgetsRead (L - 1) (c :: s)).1)) hrest
      exact ⟨b2, by rw [hb, hb2]; simp [chunkWords]⟩

theorem chunkWords_no_newline (n fuel : Nat) (s : List Char) :
    ∀ w ∈ chunkWords n fuel s, '\n' ∉ w ∧ NUL ∉ w := by
  induction fuel generalizing s with
  | zero => simp [chunkWords]
  | succ fuel ih =>
    cases s with
    | nil => simp [chunkWords]
    | cons c s =>
      intro w hw
      simp only [chunkWords, List.mem_cons] at hw
      rcases hw with rfl | hw
      · exact ⟨lineText_no_newline _, lineText_no_NUL _⟩
      · exact ih _ w hw

theorem inputLines_eq_nil (s : List Char) : inputLines s = [] ↔ s = [] := by
  cases s with
  | nil => simp [inputLines]
  | cons c s =>
    by_cases h : c = '\n'
    · simp [inputLines, h]
    · simp only [inputLines, h, if_false]
      cases inputLines s <;> simp

/-- When the first line of the input fits the call, `fgets` takes exactly that
line and its newline, and what is left are the lines after it. -/
theorem fgetsRead_line (n : Nat) (s : List Char) (l : List Char) (ls : List (List Char))
    (hs : inputLines s = l :: ls) (hfit : l.length < n) :
    lineText (fgetsRead n s).1 = cstr l ∧ inputLines (fgetsRead n s).2 = ls := by
  induction s generalizing n l ls with
  | nil => simp [inputLines] at hs
  | cons c s ih =>
    obtain ⟨m, rfl⟩ : ∃ m, n = m + 1 := ⟨n - 1, by omega⟩
    by_cases h : c = '\n'
    · simp only [inputLines, h, if_true, List.cons.injEq] at hs
      obtain ⟨rfl, rfl⟩ := hs
      simp [fgetsRead, h, lineText, List.takeWhile_cons, cstr]
    · simp only [inputLines, h, if_false] at hs
      simp only [fgetsRead, h, if_false]
      have hp : lineText (c :: (fgetsRead m s).1) =
          if c = NUL then [] else c :: lineText (fgetsRead m s).1 := by
        by_cases h0 : c = NUL <;> simp [lineText, List.takeWhile_cons, h0, h]
      cases hls : inputLines s with
      | nil =>
        rw [hls] at hs
        simp only [List.cons.injEq] at hs
        obtain ⟨rfl, rfl⟩ := hs
        have : s = [] := (inputLines_eq_nil s).1 hls
        subst this
        rw [hp]
        simp [fgetsRead_nil, cstr_cons, cstr_nil, lineText, inputLines]
      | cons l2 ls2 =>
        rw [hls] at hs
        simp only [List.cons.injEq] at hs
        obtain ⟨rfl, rfl⟩ := hs
        simp only [List.length_cons] at hfit
        obtain ⟨h1, h2⟩ := ih m l2 ls2 hls (by omega)
        rw [hp, h1, h2, cstr_cons]
        simp

/-- When every line fits the buffer, the strings `readline` yields are the
lines of the input, each as the C string it is (cut at a NUL byte, if any). -/
theorem chunkWords_lines (n fuel : Nat) (s : List Char) (hfuel : s.length < fuel)
    (hfit : ∀ l ∈ inputLines s, l.length < n) :
    chunkWords n fuel s = (inputLines s).map cstr := by
  induction fuel generalizing s with
  | zero => omega
  | succ fuel ih =>
    cases s with
    | nil => simp [chunkWords, inputLines]
    | cons c s =>
      cases hls : inputLines (c :: s) with
      | nil => simp [inputLines_eq_nil] at hls
      | cons l ls =>
        have hl : l.length < n := hfit l (by simp [hls])
        obtain ⟨m, rfl⟩ : ∃ m, n = m + 1 := ⟨n - 1, by omega⟩
        obtain ⟨h1, h2⟩ := fgetsRead_line (m + 1) (c :: s) l ls hls hl
        have hrest : (fgetsRead (m + 1) (c :: s)).2.length < fuel := by
          have := fgetsRead_rest_length m c s
          simp only [List.length_cons] at hfuel
          omega
        have hfit2 : ∀ l ∈ inputLines (fgetsRead (m + 1) (c :: s)).2, l.length < m + 1 := by
          intro x hx
          rw [h2] at hx
          exact hfit x (by simp [hls, hx])
        simp only [chunkWords, List.map_cons]
        rw [h1, ih _ hrest hfit2, h2]

/-! ## The driver: lemmas -/

theorem foldl_recording (ws : List (List Char)) (log : List Call) :
    ws.foldl recordingOps.suffixarray_append_word log =
      log ++ ws.map Call.suffixarray_append_word := by
  induction ws generalizing log with
  | nil => simp
  | cons w ws ih =>
    rw [List.foldl_cons, ih]
    simp [recordingOps]

theorem appendedWords_append (a b : List Call) :
    appendedWords (a ++ b) = appendedWords a ++ appendedWords b := by
  simp [appendedWords, List.filterMap_append]

theorem appendedWords_map (ws : List (List Char)) :
    appendedWords (ws.map Call.suffixarray_append_word) = ws := by
  induction ws with
  | nil => rfl
  | cons w ws ih =>
    simp only [appendedWords, List.map_cons, List.filterMap_cons, Call.word?] at ih ⊢
    rw [ih]

/-- With two arguments the driver makes the engine, appends the strings
`readline` yields until the input is used up, sorts, and saves twice. -/
theorem main_two_args {σ : Type} (ops : EngineOps σ) (L : Nat) (hL : 2 ≤ L) (hL2 : L < 2 ^ 31)
    (fuel : Nat) (world : σ) (prog basepath stdin : List Char) (hfuel : stdin.length < fuel) :
    main ops L fuel world [prog, basepath] stdin =
      some { exit := 0
             stderr := [Message.corpusRead (ops.used
                ((chunkWords (L - 1) fuel stdin).foldl ops.suffixarray_append_word
                  (ops.make_suffixarray world))),
               Message.sorting, Message.sortingDone, Message.done]
             world := ops.save_symbols_to_file (ops.save_suffix_array (ops.suffixarray_sort
                ((chunkWords (L - 1) fuel stdin).foldl ops.suffixarray_append_word
                  (ops.make_suffixarray world))) (some basepath)) (some basepath)
             stdin := [] } := by
  obtain ⟨b, hb⟩ := mainLoop_eq ops L hL hL2 fuel (List.replicate L NUL) stdin
    (ops.make_suffixarray world) hfuel
  simp [main, hb]

/-- The run of the recording engine on two arguments. -/
theorem main_recording (L : Nat) (hL : 2 ≤ L) (hL2 : L < 2 ^ 31) (fuel : Nat)
    (prog basepath stdin : List Char) (hfuel : stdin.length < fuel) :
    main recordingOps L fuel [] [prog, basepath] stdin =
      some { exit := 0
             stderr := [Message.corpusRead (chunkWords (L - 1) fuel stdin).length,
               Message.sorting, Message.sortingDone, Message.done]
             world := Call.make_suffixarray ::
               ((chunkWords (L - 1) fuel stdin).map Call.suffixarray_append_word ++
                 [Call.suffixarray_sort, Call.save_suffix_array (some basepath),
                  Call.save_symbols_to_file (some basepath)])
             stdin := [] } := by
  rw [main_two_args recordingOps L hL hL2 fuel [] prog basepath stdin hfuel, foldl_recording]
  have h1 : recordingOps.used (recordingOps.make_suffixarray [] ++
      (chunkWords (L - 1) fuel stdin).map Call.suffixarray_append_word) =
      (chunkWords (L - 1) fuel stdin).length := by
    simp only [recordingOps, appendedWords_append, appendedWords_map]
    simp [appendedWords, Call.word?]
  rw [h1]
  simp [recordingOps]

theorem appendedWords_run (ws : List (List Char)) (p q : Option (List Char)) :
    appendedWords (Call.make_suffixarray :: (ws.map Call.suffixarray_append_word ++
      [Call.suffixarray_sort, Call.save_suffix_array p, Call.save_symbols_to_file q])) = ws := by
  have h : Call.make_suffixarray :: (ws.map Call.suffixarray_append_word ++
      [Call.suffixarray_sort, Call.save_suffix_array p, Call.save_symbols_to_file q]) =
      [Call.make_suffixarray] ++ (ws.map Call.suffixarray_append_word ++
      [Call.suffixarray_sort, Call.save_suffix_array p, Call.save_symbols_to_file q]) := rfl
  rw [h, appendedWords_append, appendedWords_append, appendedWords_map]
  simp [appendedWords, Call.word?]

theorem LinesFit_lt (L : Nat) (stdin : List Char) (h : LinesFit L stdin) :
    ∀ l ∈ inputLines stdin, l.length < L - 1 := by
  intro l hl
  have := h l hl
  omega

theorem fgetsRead_terminated (n : Nat) (line rest : List Char) (hnl : '\n' ∉ line)
    (hlen : line.length < n) :
    fgetsRead n (line ++ '\n' :: rest) = (line ++ ['\n'], rest) := by
  induction line generalizing n with
  | nil =>
    obtain ⟨m, rfl⟩ : ∃ m, n = m + 1 := ⟨n - 1, by simp at hlen; omega⟩
    simp [fgetsRead]
  | cons c line ih =>
    simp only [List.length_cons] at hlen
    obtain ⟨m, rfl⟩ : ∃ m, n = m + 1 := ⟨n - 1, by omega⟩
    simp only [List.mem_cons, not_or] at hnl
    have hc : c ≠ '\n' := fun e => hnl.1 e.symm
    simp [fgetsRead, hc, ih m hnl.2 (by omega)]

theorem fgetsRead_replicate (n : Nat) (rest : List Char) :
    fgetsRead n (List.replicate n 'a' ++ rest) = (List.replicate n 'a', rest) := by
  induction n with
  | zero => simp [fgetsRead]
  | succ n ih =>
    have hc : 'a' ≠ '\n' := by decide
    simp [List.replicate_succ, fgetsRead, hc, ih]

theorem inputLines_of_no_newline (c : Char) (s : List Char) (h : '\n' ∉ c :: s) :
    inputLines (c :: s) = [c :: s] := by
  induction s generalizing c with
  | nil =>
    simp only [List.mem_cons, not_or] at h
    have hc : c ≠ '\n' := fun e => h.1 e.symm
    simp [inputLines, hc]
  | cons d s ih =>
    simp only [List.mem_cons, not_or] at h
    have hc : c ≠ '\n' := fun e => h.1 e.symm
    have := ih d (by simp only [List.mem_cons, not_or]; exact h.2)
    rw [inputLines, if_neg hc, this]

theorem lineText_of_clean (l : List Char) (hnl : '\n' ∉ l) (hnul : NUL ∉ l) : lineText l = l := by
  induction l with
  | nil => rfl
  | cons c l ih =>
    simp only [List.mem_cons, not_or] at hnl hnul
    have h1 : c ≠ '\n' := fun e => hnl.1 e.symm
    have h2 : c ≠ NUL := fun e => hnul.1 e.symm
    have := ih hnl.2 hnul.2
    unfold lineText at this ⊢
    simp [List.takeWhile_cons, h1, h2, this]

theorem lineText_terminated (l : List Char) (hnl : '\n' ∉ l) (hnul : NUL ∉ l) :
    lineText (l ++ ['\n']) = l := by
  induction l with
  | nil => simp [lineText, List.takeWhile_cons]
  | cons c l ih =>
    simp only [List.mem_cons, not_or] at hnl hnul
    have h1 : c ≠ '\n' := fun e => hnl.1 e.symm
    have h2 : c ≠ NUL := fun e => hnul.1 e.symm
    have := ih hnl.2 hnul.2
    unfold lineText at this ⊢
    simp [List.takeWhile_cons, h1, h2, this]

theorem map_cstr_of_clean (ls : List (List Char)) (h : ∀ l ∈ ls, NUL ∉ l) :
    ls.map cstr = ls := by
  induction ls with
  | nil => rfl
  | cons l ls ih =>
    rw [List.map_cons, cstr_of_not_mem l (h l (by simp)), ih (fun x hx => h x (by simp [hx]))]

theorem chunkWords_nil (n fuel : Nat) : chunkWords n fuel [] = [] := by
  cases fuel <;> rfl

theorem chunkWords_of_ne_nil (n fuel : Nat) (s : List Char) (hs : s ≠ []) :
    chunkWords n (fuel + 1) s =
      lineText (fgetsRead n s).1 :: chunkWords n fuel (fgetsRead n s).2 := by
  cases s with
  | nil => exact absurd rfl hs
  | cons c s => rfl

theorem fgetsRead_rest_lt (n : Nat) (hn : 0 < n) (s : List Char) (hs : s ≠ []) :
    (fgetsRead n s).2.length < s.length := by
  obtain ⟨m, rfl⟩ : ∃ m, n = m + 1 := ⟨n - 1, by omega⟩
  cases s with
  | nil => exact absurd rfl hs
  | cons c s =>
    have := fgetsRead_rest_length m c s
    simp only [List.length_cons]
    omega

/-- Past the length of the input the fuel does not matter. -/
theorem chunkWords_fuel (n : Nat) (hn : 0 < n) (f1 f2 : Nat) (s : List Char)
    (h1 : s.length < f1) (h2 : s.length < f2) : chunkWords n f1 s = chunkWords n f2 s := by
  induction f1 generalizing f2 s with
  | zero => omega
  | succ f1 ih =>
    cases f2 with
    | zero => omega
    | succ f2 =>
      by_cases hs : s = []
      · subst hs
        rfl
      · rw [chunkWords_of_ne_nil n f1 s hs, chunkWords_of_ne_nil n f2 s hs]
        have := fgetsRead_rest_lt n hn s hs
        rw [ih f2 _ (by omega) (by omega)]

theorem fgetsRead_cons_ne (n : Nat) (c : Char) (s : List Char) (hc : c ≠ '\n') :
    fgetsRead (n + 1) (c :: s) = (c :: (fgetsRead n s).1, (fgetsRead n s).2) := by
  simp [fgetsRead, hc]

/-- A call of `fgets` never reads past a newline: on an input that goes on after
a newline it takes what it takes of the part up to that newline. -/
theorem fgetsRead_within (n : Nat) (p s : List Char) :
    fgetsRead n (p ++ '\n' :: s) =
        ((fgetsRead n (p ++ ['\n'])).1, (fgetsRead n (p ++ ['\n'])).2 ++ s)
      ∧ ((fgetsRead n (p ++ ['\n'])).2 = [] ∨ ∃ q, (fgetsRead n (p ++ ['\n'])).2 = q ++ ['\n']) := by
  induction p generalizing n with
  | nil =>
    cases n with
    | zero => exact ⟨by simp [fgetsRead], Or.inr ⟨[], by simp [fgetsRead]⟩⟩
    | succ m => exact ⟨by simp [fgetsRead], Or.inl (by simp [fgetsRead])⟩
  | cons c p ih =>
    cases n with
    | zero => exact ⟨by simp [fgetsRead], Or.inr ⟨c :: p, by simp [fgetsRead]⟩⟩
    | succ m =>
      by_cases hc : c = '\n'
      · exact ⟨by simp [fgetsRead, hc], Or.inr ⟨p, by simp [fgetsRead, hc]⟩⟩
      · obtain ⟨h1, h2⟩ := ih m
        refine ⟨?_, ?_⟩
        · rw [List.cons_append, List.cons_append, fgetsRead_cons_ne m c _ hc,
            fgetsRead_cons_ne m c _ hc, h1]
        · rw [List.cons_append, fgetsRead_cons_ne m c _ hc]
          exact h2

/-- The words of an input that goes on after a newline are the words of the
part up to that newline, then the words of the rest. -/
theorem chunkWords_append (n : Nat) (hn : 0 < n) (fuel : Nat) (p s : List Char)
    (h : (p ++ '\n' :: s).length < fuel) :
    chunkWords n fuel (p ++ '\n' :: s) =
      chunkWords n fuel (p ++ ['\n']) ++ chunkWords n fuel s := by
  induction fuel generalizing p with
  | zero => omega
  | succ fuel ih =>
    have hlen : (p ++ '\n' :: s).length = p.length + 1 + s.length := by
      simp only [List.length_append, List.length_cons]; omega
    have hne1 : p ++ '\n' :: s ≠ [] := by simp
    have hne2 : p ++ ['\n'] ≠ [] := by simp
    obtain ⟨h1, h2⟩ := fgetsRead_within n p s
    have hlt := fgetsRead_rest_lt n hn (p ++ ['\n']) hne2
    have hplen : (p ++ ['\n']).length = p.length + 1 := by simp
    rw [chunkWords_of_ne_nil n fuel _ hne1, chunkWords_of_ne_nil n fuel _ hne2, h1]
    simp only [List.cons_append, List.cons.injEq, true_and]
    have hs : chunkWords n fuel s = chunkWords n (fuel + 1) s :=
      chunkWords_fuel n hn fuel (fuel + 1) s (by omega) (by omega)
    rcases h2 with h2 | ⟨q, h2⟩
    · rw [h2, chunkWords_nil, List.nil_append, List.nil_append, hs]
    · rw [h2] at hlt ⊢
      have hq : (q ++ ['\n']).length = q.length + 1 := by simp
      have hqs : (q ++ '\n' :: s).length = q.length + 1 + s.length := by
        simp only [List.length_append, List.length_cons]; omega
      have e : q ++ ['\n'] ++ s = q ++ '\n' :: s := by simp
      rw [e, ih q (by omega), hs]

theorem chunkWords_at_line_start (n : Nat) (hn : 0 < n) (fuel : Nat) (pre s : List Char)
    (hpre : AtLineStart pre) (h : (pre ++ s).length < fuel) :
    chunkWords n fuel (pre ++ s) = chunkWords n fuel pre ++ chunkWords n fuel s := by
  rcases hpre with rfl | ⟨p, rfl⟩
  · simp [chunkWords_nil]
  · have e : p ++ ['\n'] ++ s = p ++ '\n' :: s := by simp
    rw [e] at h ⊢
    exact chunkWords_append n hn fuel p s h

theorem inputLines_terminated (line : List Char) (hnl : '\n' ∉ line) :
    inputLines (line ++ ['\n']) = [line] := by
  induction line with
  | nil => simp [inputLines]
  | cons c l ih =>
    simp only [List.mem_cons, not_or] at hnl
    have hc : c ≠ '\n' := fun e => hnl.1 e.symm
    rw [List.cons_append, inputLines, if_neg hc, ih hnl.2]

/-- A line that fits the call, wherever the input goes on after it, gives one
word: its text as a C string. -/
theorem chunkWords_fitting_line (n : Nat) (fuel : Nat) (line rest : List Char)
    (hnl : '\n' ∉ line) (hlen : line.length < n) (h : (line ++ '\n' :: rest).length < fuel) :
    chunkWords n fuel (line ++ '\n' :: rest) = cstr line :: chunkWords n fuel rest := by
  have hl : (line ++ '\n' :: rest).length = line.length + 1 + rest.length := by
    simp only [List.length_append, List.length_cons]; omega
  have hone : chunkWords n fuel (line ++ ['\n']) = [cstr line] := by
    rw [chunkWords_lines n fuel _ (by simp; omega)
      (by rw [inputLines_terminated line hnl]; simpa using hlen),
      inputLines_terminated line hnl]
    rfl
  rw [chunkWords_append n (by omega) fuel line rest h, hone]
  rfl

/-- A last line without a newline that fits the call gives one word. -/
theorem chunkWords_last_line (n : Nat) (fuel : Nat) (line : List Char) (hne : line ≠ [])
    (hnl : '\n' ∉ line) (hlen : line.length < n) (h : line.length < fuel) :
    chunkWords n fuel line = [cstr line] := by
  cases line with
  | nil => exact absurd rfl hne
  | cons c l =>
    rw [chunkWords_lines n fuel _ h
      (by rw [inputLines_of_no_newline c l hnl]; simpa using hlen),
      inputLines_of_no_newline c l hnl]
    rfl

/-- The words the driver appends are the strings `readline` yields. -/
theorem driverWords_eq (L : Nat) (hL : 2 ≤ L) (hL2 : L < 2 ^ 31) (fuel : Nat)
    (prog basepath stdin : List Char) (hfuel : stdin.length < fuel) :
    driverWords L fuel [prog, basepath] stdin = some (chunkWords (L - 1) fuel stdin) := by
  unfold driverWords
  rw [main_recording L hL hL2 fuel prog basepath stdin hfuel]
  simp only [Option.map_some', appendedWords_run]

/-- A line of fewer than `L - 1` bytes that ends in a newline, wherever it
stands in the input, is appended as one word, its text as a C string, between
the words of what precedes it and the words of what follows it. -/
theorem driverWords_line (L : Nat) (hL2 : L < 2 ^ 31) (fuel : Nat)
    (prog basepath pre line rest : List Char) (hpre : AtLineStart pre) (hnl : '\n' ∉ line)
    (hlen : line.length + 1 < L) (hfuel : (pre ++ (line ++ '\n' :: rest)).length < fuel) :
    ∃ before after,
      driverWords L fuel [prog, basepath] pre = some before
      ∧ driverWords L fuel [prog, basepath] rest = some after
      ∧ driverWords L fuel [prog, basepath] (pre ++ (line ++ '\n' :: rest))
          = some (before ++ cstr line :: after) := by
  have hL : 2 ≤ L := by omega
  have hl : (pre ++ (line ++ '\n' :: rest)).length =
      pre.length + (line.length + 1 + rest.length) := by
    simp only [List.length_append, List.length_cons]; omega
  have hl2 : (line ++ '\n' :: rest).length = line.length + 1 + rest.length := by
    simp only [List.length_append, List.length_cons]; omega
  refine ⟨chunkWords (L - 1) fuel pre, chunkWords (L - 1) fuel rest,
    driverWords_eq L hL hL2 fuel prog basepath pre (by omega),
    driverWords_eq L hL hL2 fuel prog basepath rest (by omega), ?_⟩
  rw [driverWords_eq L hL hL2 fuel prog basepath _ hfuel,
    chunkWords_at_line_start (L - 1) (by omega) fuel pre _ hpre hfuel,
    chunkWords_fitting_line (L - 1) fuel line rest hnl (by omega) (by omega)]

/-- A last line of fewer than `L - 1` bytes that does not end in a newline is
appended as one word, after the words of what precedes it. -/
theorem driverWords_last_line (L : Nat) (hL2 : L < 2 ^ 31) (fuel : Nat)
    (prog basepath pre line : List Char) (hpre : AtLineStart pre) (hne : line ≠ [])
    (hnl : '\n' ∉ line) (hlen : line.length + 1 < L) (hfuel : (pre ++ line).length < fuel) :
    ∃ before,
      driverWords L fuel [prog, basepath] pre = some before
      ∧ driverWords L fuel [prog, basepath] (pre ++ line) = some (before ++ [cstr line]) := by
  have hL : 2 ≤ L := by omega
  have hl : (pre ++ line).length = pre.length + line.length := by simp
  refine ⟨chunkWords (L - 1) fuel pre,
    driverWords_eq L hL hL2 fuel prog basepath pre (by omega), ?_⟩
  rw [driverWords_eq L hL hL2 fuel prog basepath _ hfuel,
    chunkWords_at_line_start (L - 1) (by omega) fuel pre _ hpre hfuel,
    chunkWords_last_line (L - 1) fuel line hne hnl (by omega) (by omega)]

/-- Whatever the size of the buffer, the input of a single blank is appended as
a word holding that blank. -/
theorem chunkWords_blank (L : Nat) (hL : 2 ≤ L) : chunkWords (L - 1) 2 [' '] = [[' ']] := by
  obtain ⟨n, hn⟩ : ∃ n, L - 1 = n + 1 := ⟨L - 2, by omega⟩
  have hc : ¬ (' ' = '\n') := by decide
  have ht : lineText [' '] = [' '] := by decide
  rw [hn]
  simp only [chunkWords, fgetsRead, hc, if_false, fgetsRead_nil, ht, chunkWords_nil]

/-- Whatever the size `L` of the buffer, one line of `L` bytes is appended as
two words. -/
theorem chunkWords_long_line (L : Nat) (hL : 2 ≤ L) :
    (chunkWords (L - 1) (L + 1) (List.replicate L 'a')).length = 2
    ∧ inputLines (List.replicate L 'a') = [List.replicate L 'a'] := by
  obtain ⟨n, hn⟩ : ∃ n, L - 1 = n + 1 := ⟨L - 2, by omega⟩
  have hLn : L = (n + 1) + 1 := by omega
  have hlines : inputLines (List.replicate L 'a') = [List.replicate L 'a'] := by
    rw [hLn, List.replicate_succ]
    apply inputLines_of_no_newline
    rw [← List.replicate_succ]
    intro hmem
    have := List.eq_of_mem_replicate hmem
    exact absurd this (by decide)
  have hsplit : List.replicate L 'a' = 'a' :: (List.replicate n 'a' ++ ['a']) := by
    rw [hLn, List.replicate_succ, List.replicate_succ']
  have hc : ¬ ('a' = '\n') := by decide
  have hread : fgetsRead (n + 1) ('a' :: (List.replicate n 'a' ++ ['a'])) =
      ('a' :: List.replicate n 'a', ['a']) := by
    have := fgetsRead_replicate (n + 1) ['a']
    rwa [List.replicate_succ, List.cons_append] at this
  refine ⟨?_, hlines⟩
  rw [hsplit, hn, hLn]
  simp only [chunkWords, hread]
  simp [fgetsRead, hc, fgetsRead_nil, chunkWords]

/-! ## The driver: the claims -/

/-- C7: with the base-path argument missing (`argc = 1`) `main` ends through
`error` with the usage message and a nonzero exit status, and the state is
untouched: no engine call is made (the recorded log stays empty), no input is
read, nothing is saved. With exactly one argument after the program name the
run ends with status 0 and no usage message. -/
theorem main_missing_argument {σ : Type} (ops : EngineOps σ) (L fuel : Nat) (world : σ)
    (prog basepath stdin : List Char) :
    main ops L fuel world [prog] stdin =
        some { exit := ERROR_EXIT, stderr := [Message.usage (some prog)],
               world := world, stdin := stdin }
      ∧ ERROR_EXIT ≠ 0
      ∧ main recordingOps L fuel [] [prog] stdin =
        some { exit := ERROR_EXIT, stderr := [Message.usage (some prog)],
               world := [], stdin := stdin }
      ∧ (2 ≤ L → L < 2 ^ 31 → stdin.length < fuel →
          ∃ out, main ops L fuel world [prog, basepath] stdin = some out ∧ out.exit = 0 ∧
            ∀ p, Message.usage p ∉ out.stderr) := by
  refine ⟨by simp [main, error], by decide, by simp [main, error], ?_⟩
  intro hL hL2 hfuel
  exact ⟨_, main_two_args ops L hL hL2 fuel world prog basepath stdin hfuel, rfl, by simp⟩

/-- C7 at a concrete run: program `index`, input of two lines, a buffer of 16 bytes. -/
theorem main_missing_argument_witness :
    main recordingOps 16 9 [] ["index".toList] "the\ncat\n".toList =
        some { exit := ERROR_EXIT, stderr := [Message.usage (some "index".toList)],
               world := [], stdin := "the\ncat\n".toList }
      ∧ ∃ out, main recordingOps 16 9 [] ["index".toList, "base".toList] "the\ncat\n".toList
          = some out ∧ out.exit = 0 ∧ ∀ p, Message.usage p ∉ out.stderr :=
  ⟨(main_missing_argument recordingOps 16 9 [] "index".toList "base".toList
      "the\ncat\n".toList).1,
   (main_missing_argument recordingOps 16 9 [] "index".toList "base".toList
      "the\ncat\n".toList).2.2.2 (by decide) (by decide) (by decide)⟩

/-- C8, as the code has it: for every input and every base path given as the
single argument the driver makes exactly these engine calls, in this order:
`make_suffixarray`, then a run of `suffixarray_append_word` calls, then, with
all input consumed, `suffixarray_sort` once, then `save_suffix_array` and
`save_symbols_to_file`, both with `argv[1]`. When every line of the input has
fewer than `LINE_BUFFER_LEN - 1` bytes the append calls are one per input line,
in input order (`n` calls for `n` lines), each with the text of its line up to
the first NUL byte, if any. -/
theorem main_engine_calls (L fuel : Nat) (prog basepath stdin : List Char)
    (hL : 2 ≤ L) (hL2 : L < 2 ^ 31) (hfuel : stdin.length < fuel) :
    ∃ words : List (List Char),
      main recordingOps L fuel [] [prog, basepath] stdin =
        some { exit := 0
               stderr := [Message.corpusRead words.length, Message.sorting,
                 Message.sortingDone, Message.done]
               world := Call.make_suffixarray ::
                 (words.map Call.suffixarray_append_word ++
                   [Call.suffixarray_sort, Call.save_suffix_array (some basepath),
                    Call.save_symbols_to_file (some basepath)])
               stdin := [] }
      ∧ words = chunkWords (L - 1) fuel stdin
      ∧ (LinesFit L stdin →
          words = (inputLines stdin).map cstr ∧ words.length = (inputLines stdin).length) := by
  refine ⟨chunkWords (L - 1) fuel stdin,
    main_recording L hL hL2 fuel prog basepath stdin hfuel, rfl, ?_⟩
  intro hfit
  rw [chunkWords_lines (L - 1) fuel stdin hfuel (LinesFit_lt L stdin hfit)]
  exact ⟨rfl, by simp⟩

/-- C8 at a concrete run: four lines, a buffer of 16 bytes. -/
theorem main_engine_calls_witness :
    ∃ words : List (List Char),
      main recordingOps 16 17 [] ["index".toList, "base".toList] "the\ncat\nthe\ndog\n".toList =
        some { exit := 0
               stderr := [Message.corpusRead words.length, Message.sorting,
                 Message.sortingDone, Message.done]
               world := Call.make_suffixarray ::
                 (words.map Call.suffixarray_append_word ++
                   [Call.suffixarray_sort, Call.save_suffix_array (some "base".toList),
                    Call.save_symbols_to_file (some "base".toList)])
               stdin := [] }
      ∧ words = chunkWords (16 - 1) 17 "the\ncat\nthe\ndog\n".toList
      ∧ (LinesFit 16 "the\ncat\nthe\ndog\n".toList →
          words = (inputLines "the\ncat\nthe\ndog\n".toList).map cstr
          ∧ words.length = (inputLines "the\ncat\nthe\ndog\n".toList).length) :=
  main_engine_calls 16 17 "index".toList "base".toList "the\ncat\nthe\ndog\n".toList
    (by decide) (by decide) (by decide)

/-- C8 fails as stated: the append calls are not one per word of the input. On
the four words `the cat the dog` of one line the driver makes one append call,
with the whole line; with a buffer of 8 bytes the two lines `abcdefg` and `xy`
give three calls; and whatever the size of the buffer, the input of a single
blank, which holds no word, gives one append call. -/
theorem main_calls_not_per_word :
    main recordingOps 32 17 [] ["index".toList, "base".toList] "the cat the dog\n".toList =
        some { exit := 0
               stderr := [Message.corpusRead 1, Message.sorting, Message.sortingDone,
                 Message.done]
               world := [Call.make_suffixarray,
                 Call.suffixarray_append_word "the cat the dog".toList,
                 Call.suffixarray_sort, Call.save_suffix_array (some "base".toList),
                 Call.save_symbols_to_file (some "base".toList)]
               stdin := [] }
    ∧ whitespaceWords "the cat the dog\n".toList =
        ["the".toList, "cat".toList, "the".toList, "dog".toList]
    ∧ driverWords 8 12 ["index".toList, "base".toList] "abcdefg\nxy\n".toList =
        some ["abcdefg".toList, [], "xy".toList]
    ∧ inputLines "abcdefg\nxy\n".toList = ["abcdefg".toList, "xy".toList]
    ∧ ¬ ∃ L, 2 ≤ L ∧ L < 2 ^ 31 ∧
        ∀ (fuel : Nat) (stdin : List Char), stdin.length < fuel →
          ∃ out, main recordingOps L fuel [] [[], []] stdin = some out ∧
            out.world = Call.make_suffixarray ::
              ((whitespaceWords stdin).map Call.suffixarray_append_word ++
                [Call.suffixarray_sort, Call.save_suffix_array (some []),
                 Call.save_symbols_to_file (some [])]) := by
  refine ⟨by decide, by decide, by decide, by decide, ?_⟩
  rintro ⟨L, hL, hL2, h⟩
  obtain ⟨out, hout, hworld⟩ := h 2 [' '] (by decide)
  rw [main_recording L hL hL2 2 [] [] [' '] (by decide), chunkWords_blank L hL] at hout
  have hw : whitespaceWords [' '] = [] := by decide
  rw [hw] at hworld
  have := Option.some.inj hout
  rw [← this] at hworld
  exact absurd hworld (by decide)

/-- C6, as the code has it: the strings handed to the driver are the lines of
the input, not its whitespace-delimited words. No yielded string contains a
newline, and when every line has fewer than `LINE_BUFFER_LEN - 1` bytes and no
NUL byte the sequence of yielded strings is the input split at newlines. -/
theorem readline_yields_lines (L fuel : Nat) (prog basepath stdin : List Char)
    (hL : 2 ≤ L) (hL2 : L < 2 ^ 31) (hfuel : stdin.length < fuel) :
    ∃ out, main recordingOps L fuel [] [prog, basepath] stdin = some out
      ∧ (∀ w ∈ appendedWords out.world, '\n' ∉ w)
      ∧ (LinesFit L stdin → (∀ l ∈ inputLines stdin, NUL ∉ l) →
          appendedWords out.world = inputLines stdin) := by
  refine ⟨_, main_recording L hL hL2 fuel prog basepath stdin hfuel, ?_, ?_⟩
  · intro w hw
    rw [appendedWords_run] at hw
    exact (chunkWords_no_newline _ _ _ w hw).1
  · intro hfit hclean
    rw [appendedWords_run, chunkWords_lines (L - 1) fuel stdin hfuel (LinesFit_lt L stdin hfit),
      map_cstr_of_clean _ hclean]

/-- C6 at a concrete run: one word a line gives the four words. -/
theorem readline_yields_lines_witness :
    ∃ out, main recordingOps 16 17 [] ["index".toList, "base".toList]
        "the\ncat\nthe\ndog\n".toList = some out
      ∧ (∀ w ∈ appendedWords out.world, '\n' ∉ w)
      ∧ (LinesFit 16 "the\ncat\nthe\ndog\n".toList →
          (∀ l ∈ inputLines "the\ncat\nthe\ndog\n".toList, NUL ∉ l) →
          appendedWords out.world = inputLines "the\ncat\nthe\ndog\n".toList) :=
  readline_yields_lines 16 17 "index".toList "base".toList "the\ncat\nthe\ndog\n".toList
    (by decide) (by decide) (by decide)

/-- C6 fails as stated: on the input line `the cat the dog` the driver is
handed one string, the whole line with its blanks, not four words; and whatever
the size of the buffer, the input of a single blank yields a string holding
that blank. -/
theorem readline_keeps_whitespace :
    (main recordingOps 32 17 [] ["index".toList, "base".toList]
        "the cat the dog\n".toList).map (fun o => appendedWords o.world)
      = some ["the cat the dog".toList]
    ∧ ' ' ∈ "the cat the dog".toList
    ∧ ¬ ∃ L, 2 ≤ L ∧ L < 2 ^ 31 ∧
        ∀ (fuel : Nat) (stdin : List Char), stdin.length < fuel →
          ∀ out, main recordingOps L fuel [] [[], []] stdin = some out →
            ∀ w ∈ appendedWords out.world, ' ' ∉ w := by
  refine ⟨by decide, by decide, ?_⟩
  rintro ⟨L, hL, hL2, h⟩
  have hrun := main_recording L hL hL2 2 [] [] [' '] (by decide)
  have hw := h 2 [' '] (by decide) _ hrun [' ']
  rw [appendedWords_run] at hw
  obtain ⟨n, hn⟩ : ∃ n, L - 1 = n + 1 := ⟨L - 2, by omega⟩
  have hc : ¬ (' ' = '\n') := by decide
  have hmem : [' '] ∈ chunkWords (L - 1) 2 [' '] := by
    rw [hn]
    simp only [chunkWords, fgetsRead, hc, if_false, fgetsRead_nil]
    have : lineText [' '] = [' '] := by decide
    rw [this]
    simp
  exact hw hmem (by simp)

/-- C9, as the code has it: `readline` returns NULL exactly when no input is
left; a lone newline yields a non-NULL empty string; so the loop of the driver
does not stop before the input is used up, and it appends one word per input
line of fewer than `LINE_BUFFER_LEN - 1` bytes, empty lines included: such a
line, wherever it stands in the input and whether or not the other lines fit,
gives exactly one word, its text, between the words of what precedes it and
the words of what follows it. -/
theorem readline_null_iff_end (L : Nat) (hL : 2 ≤ L) (hL2 : L < 2 ^ 31) :
    (∀ buffer stream : List Char, (readline L buffer stream).line = none ↔ stream = [])
    ∧ (∀ buffer rest : List Char, ∃ b,
        readline L buffer ('\n' :: rest) = { line := some b, buffer := b, stream := rest }
          ∧ cstr b = [])
    ∧ (∀ (fuel : Nat) (prog basepath stdin : List Char), stdin.length < fuel →
        ∃ out, main recordingOps L fuel [] [prog, basepath] stdin = some out
          ∧ out.stdin = []
          ∧ (LinesFit L stdin →
              appendedWords out.world = (inputLines stdin).map cstr
              ∧ (appendedWords out.world).length = (inputLines stdin).length))
    ∧ (∀ (fuel : Nat) (prog basepath pre line rest : List Char),
        AtLineStart pre → '\n' ∉ line → line.length + 1 < L →
        (pre ++ (line ++ '\n' :: rest)).length < fuel →
        ∃ before after,
          driverWords L fuel [prog, basepath] pre = some before
          ∧ driverWords L fuel [prog, basepath] rest = some after
          ∧ driverWords L fuel [prog, basepath] (pre ++ (line ++ '\n' :: rest))
              = some (before ++ cstr line :: after))
    ∧ (∀ (fuel : Nat) (prog basepath pre line : List Char),
        AtLineStart pre → line ≠ [] → '\n' ∉ line → line.length + 1 < L →
        (pre ++ line).length < fuel →
        ∃ before,
          driverWords L fuel [prog, basepath] pre = some before
          ∧ driverWords L fuel [prog, basepath] (pre ++ line)
              = some (before ++ [cstr line])) := by
  obtain ⟨n, hn⟩ : ∃ n, L - 1 = n + 1 := ⟨L - 2, by omega⟩
  refine ⟨?_, ?_, ?_, ?_, ?_⟩
  · intro buffer stream
    cases stream with
    | nil => simp [readline_nil L hL]
    | cons c s =>
      obtain ⟨b, hb, _⟩ := readline_cons L hL buffer c s
      simp [hb]
  · intro buffer rest
    obtain ⟨b, hb, hc⟩ := readline_cons L hL buffer '\n' rest
    refine ⟨b, ?_, ?_⟩
    · rw [hb, hn]; simp [fgetsRead]
    · rw [hc, hn]; simp [fgetsRead, lineText, List.takeWhile_cons]
  · intro fuel prog basepath stdin hfuel
    refine ⟨_, main_recording L hL hL2 fuel prog basepath stdin hfuel, rfl, ?_⟩
    intro hfit
    have := chunkWords_lines (L - 1) fuel stdin hfuel (LinesFit_lt L stdin hfit)
    rw [appendedWords_run, this]
    simp
  · intro fuel prog basepath pre line rest hpre hnl hlen hfuel
    exact driverWords_line L hL2 fuel prog basepath pre line rest hpre hnl hlen hfuel
  · intro fuel prog basepath pre line hpre hne hnl hlen hfuel
    exact driverWords_last_line L hL2 fuel prog basepath pre line hpre hne hnl hlen hfuel

/-- C9 at concrete runs: a buffer of 16 bytes and an input with an empty line;
a buffer of 8 bytes and the short line `k` after the long line `abcdefghij`. -/
theorem readline_null_iff_end_witness :
    (∃ b, readline 16 (List.replicate 16 NUL) ('\n' :: "dog\n".toList) =
        { line := some b, buffer := b, stream := "dog\n".toList } ∧ cstr b = [])
    ∧ (∃ out, main recordingOps 16 10 [] ["index".toList, "base".toList] "the\n\ndog\n".toList
          = some out
        ∧ out.stdin = []
        ∧ (LinesFit 16 "the\n\ndog\n".toList →
            appendedWords out.world = (inputLines "the\n\ndog\n".toList).map cstr
            ∧ (appendedWords out.world).length = (inputLines "the\n\ndog\n".toList).length))
    ∧ (∃ before after,
        driverWords 8 14 ["index".toList, "base".toList] "abcdefghij\n".toList = some before
        ∧ driverWords 8 14 ["index".toList, "base".toList] [] = some after
        ∧ driverWords 8 14 ["index".toList, "base".toList]
            ("abcdefghij\n".toList ++ ("k".toList ++ '\n' :: []))
            = some (before ++ cstr "k".toList :: after))
    ∧ (∃ before,
        driverWords 8 14 ["index".toList, "base".toList] "abcdefghij\n".toList = some before
        ∧ driverWords 8 14 ["index".toList, "base".toList] ("abcdefghij\n".toList ++ "k".toList)
            = some (before ++ [cstr "k".toList])) :=
  ⟨(readline_null_iff_end 16 (by decide) (by decide)).2.1 (List.replicate 16 NUL) "dog\n".toList,
   (readline_null_iff_end 16 (by decide) (by decide)).2.2.1 10 "index".toList "base".toList
      "the\n\ndog\n".toList (by decide),
   (readline_null_iff_end 8 (by decide) (by decide)).2.2.2.1 14 "index".toList "base".toList
      "abcdefghij\n".toList "k".toList [] (Or.inr ⟨"abcdefghij".toList, by decide⟩)
      (by decide) (by decide) (by decide),
   (readline_null_iff_end 8 (by decide) (by decide)).2.2.2.2 14 "index".toList "base".toList
      "abcdefghij\n".toList "k".toList (Or.inr ⟨"abcdefghij".toList, by decide⟩)
      (by decide) (by decide) (by decide) (by decide)⟩

/-- C9 fails as stated: a line longer than the buffer is appended as several
words. With a buffer of 8 bytes the one line `abcdefghij` gives two words; and
whatever the size `L` of the buffer, a line of `L` bytes does. -/
theorem long_line_split :
    (main recordingOps 8 12 [] ["index".toList, "base".toList]
        "abcdefghij\n".toList).map (fun o => appendedWords o.world)
      = some ["abcdefg".toList, "hij".toList]
    ∧ inputLines "abcdefghij\n".toList = ["abcdefghij".toList]
    ∧ ¬ ∃ L, 2 ≤ L ∧ L < 2 ^ 31 ∧
        ∀ (fuel : Nat) (stdin : List Char), stdin.length < fuel →
          (main recordingOps L fuel [] [[], []] stdin).map
            (fun o => (appendedWords o.world).length) = some (inputLines stdin).length := by
  refine ⟨by decide, by decide, ?_⟩
  rintro ⟨L, hL, hL2, h⟩
  have hlen : (List.replicate L 'a').length < L + 1 := by simp
  have hw := h (L + 1) (List.replicate L 'a') hlen
  rw [main_recording L hL hL2 (L + 1) [] [] _ hlen] at hw
  simp only [Option.map_some', appendedWords_run, Option.some.injEq] at hw
  obtain ⟨hwords, hlines⟩ := chunkWords_long_line L hL
  rw [hlines, hwords] at hw
  simp at hw

/-- A string of `2^31 - 1` bytes is not copied: the sum `length + 1` does not
fit the `int` it is computed in. -/
theorem copystring_too_long (s t : List Char) (hs : NUL ∉ s) (hlen : s.length = 2 ^ 31 - 1) :
    copystring (s ++ NUL :: t) = none := by
  have h1 : strlen (s ++ NUL :: t) = 2 ^ 31 - 1 := by
    unfold strlen
    rw [cstr_append_NUL s t hs, hlen]
  have h2 : toInt32 (2 ^ 31 - 1) = ((2 ^ 31 - 1 : Nat) : Int) := toInt32_of_lt _ (by omega)
  have h3 : ¬ (((2 ^ 31 - 1 : Nat) : Int) + 1 < 2 ^ 31) := by omega
  unfold copystring
  simp only [h1, h2, h3, if_false]

/-- C10, as the code has it: for an input line of fewer than
`LINE_BUFFER_LEN - 1` bytes with no NUL byte, `readline` takes the line and its
newline, and the word the driver passes to `suffixarray_append_word`, the copy
`copystring` makes of what `readline` returned, is the text of the line: without
the newline, of the same length. The run of `main` logs the append call with
that word, first when the line is first and in its place when the line comes
later in the input. `copystring` returns a copy equal to its argument for every
string of fewer than `2^31 - 1` bytes. -/
theorem driver_word_is_line (L : Nat) (buffer line rest : List Char) (hL2 : L < 2 ^ 31)
    (hlen : line.length + 1 < L) (hnl : '\n' ∉ line) (hnul : NUL ∉ line) :
    ∃ b new,
      readline L buffer (line ++ '\n' :: rest) = { line := some b, buffer := b, stream := rest }
      ∧ copystring b = some new
      ∧ cstr new = line
      ∧ '\n' ∉ cstr new
      ∧ (cstr new).length = line.length
      ∧ (∀ (fuel : Nat) (prog basepath : List Char), (line ++ '\n' :: rest).length < fuel →
          ∃ after,
            driverWords L fuel [prog, basepath] rest = some after
            ∧ main recordingOps L fuel [] [prog, basepath] (line ++ '\n' :: rest) =
              some { exit := 0
                     stderr := [Message.corpusRead (after.length + 1), Message.sorting,
                       Message.sortingDone, Message.done]
                     world := Call.make_suffixarray :: Call.suffixarray_append_word line ::
                       (after.map Call.suffixarray_append_word ++
                         [Call.suffixarray_sort, Call.save_suffix_array (some basepath),
                          Call.save_symbols_to_file (some basepath)])
                     stdin := [] })
      ∧ (∀ (fuel : Nat) (prog basepath pre : List Char), AtLineStart pre →
          (pre ++ (line ++ '\n' :: rest)).length < fuel →
          ∃ before after,
            driverWords L fuel [prog, basepath] pre = some before
            ∧ driverWords L fuel [prog, basepath] rest = some after
            ∧ driverWords L fuel [prog, basepath] (pre ++ (line ++ '\n' :: rest))
                = some (before ++ line :: after))
      ∧ (∀ s t : List Char, NUL ∉ s → s.length + 1 < 2 ^ 31 →
          (copystring (s ++ NUL :: t)).map cstr = some s) := by
  have hL : 2 ≤ L := by omega
  obtain ⟨c, s, hcs⟩ : ∃ c s, line ++ '\n' :: rest = c :: s := by
    cases line with
    | nil => exact ⟨_, _, rfl⟩
    | cons c l => exact ⟨c, l ++ '\n' :: rest, rfl⟩
  have hread : fgetsRead (L - 1) (line ++ '\n' :: rest) = (line ++ ['\n'], rest) :=
    fgetsRead_terminated (L - 1) line rest hnl (by omega)
  obtain ⟨b, hb, hc⟩ := readline_cons L hL buffer c s
  rw [← hcs, hread] at hb hc
  rw [lineText_terminated line hnl hnul] at hc
  have hstr : strlen b + 1 < 2 ^ 31 := by
    unfold strlen
    rw [hc]
    omega
  have hl2 : (line ++ '\n' :: rest).length = line.length + 1 + rest.length := by
    simp only [List.length_append, List.length_cons]; omega
  refine ⟨b, cstr b ++ [NUL], hb, copystring_eq b hstr, ?_, ?_, ?_, ?_, ?_, ?_⟩
  · rw [cstr_append_NUL _ _ (NUL_not_mem_cstr b), hc]
  · rw [cstr_append_NUL _ _ (NUL_not_mem_cstr b), hc]
    exact hnl
  · rw [cstr_append_NUL _ _ (NUL_not_mem_cstr b), hc]
  · intro fuel prog basepath hfuel
    refine ⟨chunkWords (L - 1) fuel rest,
      driverWords_eq L hL hL2 fuel prog basepath rest (by omega), ?_⟩
    rw [main_recording L hL hL2 fuel prog basepath _ hfuel,
      chunkWords_fitting_line (L - 1) fuel line rest hnl (by omega) hfuel,
      cstr_of_not_mem line hnul]
    rfl
  · intro fuel prog basepath pre hpre hfuel
    have h := driverWords_line L hL2 fuel prog basepath pre line rest hpre hnl hlen hfuel
    rwa [cstr_of_not_mem line hnul] at h
  · intro s t hs hslen
    have h1 : cstr (s ++ NUL :: t) = s := cstr_append_NUL s t hs
    have h2 : strlen (s ++ NUL :: t) + 1 < 2 ^ 31 := by
      unfold strlen
      rw [h1]
      exact hslen
    rw [cstr_copystring _ h2, h1]

/-- C10 at a concrete line: `cat`, first in the input with a buffer of 16 bytes
holding an earlier, longer line, and after the line `the`. -/
theorem driver_word_is_line_witness :
    ∃ b new,
      readline 16 ("elephant".toList ++ List.replicate 8 NUL) ("cat".toList ++ '\n' :: "dog\n".toList)
        = { line := some b, buffer := b, stream := "dog\n".toList }
      ∧ copystring b = some new
      ∧ cstr new = "cat".toList
      ∧ '\n' ∉ cstr new
      ∧ (cstr new).length = "cat".toList.length
      ∧ (∃ after,
          driverWords 16 9 ["index".toList, "base".toList] "dog\n".toList = some after
          ∧ main recordingOps 16 9 [] ["index".toList, "base".toList]
              ("cat".toList ++ '\n' :: "dog\n".toList) =
            some { exit := 0
                   stderr := [Message.corpusRead (after.length + 1), Message.sorting,
                     Message.sortingDone, Message.done]
                   world := Call.make_suffixarray ::
                     Call.suffixarray_append_word "cat".toList ::
                     (after.map Call.suffixarray_append_word ++
                       [Call.suffixarray_sort, Call.save_suffix_array (some "base".toList),
                        Call.save_symbols_to_file (some "base".toList)])
                   stdin := [] })
      ∧ (∃ before after,
          driverWords 16 13 ["index".toList, "base".toList] "the\n".toList = some before
          ∧ driverWords 16 13 ["index".toList, "base".toList] "dog\n".toList = some after
          ∧ driverWords 16 13 ["index".toList, "base".toList]
              ("the\n".toList ++ ("cat".toList ++ '\n' :: "dog\n".toList))
              = some (before ++ "cat".toList :: after))
      ∧ (copystring ("cat".toList ++ NUL :: "xyz".toList)).map cstr = some "cat".toList := by
  obtain ⟨b, new, h1, h2, h3, h4, h5, h6, h7, h8⟩ :=
    driver_word_is_line 16 ("elephant".toList ++ List.replicate 8 NUL) "cat".toList
      "dog\n".toList (by decide) (by decide) (by decide) (by decide)
  exact ⟨b, new, h1, h2, h3, h4, h5, h6 9 "index".toList "base".toList (by decide),
    h7 13 "index".toList "base".toList "the\n".toList (Or.inr ⟨"the".toList, by decide⟩)
      (by decide),
    h8 "cat".toList "xyz".toList (by decide) (by decide)⟩

/-- C10 fails as stated in its last part: `copystring` does not return a copy of
every string. For the string of `2^31 - 1` bytes `a` the sum `length + 1`
overflows the `int` and no copy is returned. -/
theorem copystring_int_overflow :
    cstr (List.replicate (2 ^ 31 - 1) 'a' ++ [NUL]) = List.replicate (2 ^ 31 - 1) 'a'
    ∧ copystring (List.replicate (2 ^ 31 - 1) 'a' ++ [NUL]) = none := by
  have hs : NUL ∉ List.replicate (2 ^ 31 - 1) 'a' := by
    intro hmem
    have := List.eq_of_mem_replicate hmem
    exact absurd this (by decide)
  exact ⟨cstr_append_NUL _ [] hs,
    copystring_too_long _ [] hs (List.length_replicate _ _)⟩

/-! ## The comparison of suffixes: lemmas -/

theorem compareSymbols_flip (xs ys : List Nat) :
    compareSymbols ys xs = - compareSymbols xs ys := by
  induction xs generalizing ys with
  | nil => cases ys <;> simp [compareSymbols]
  | cons a as ih =>
    cases ys with
    | nil => simp [compareSymbols]
    | cons b bs =>
      simp only [compareSymbols]
      rcases Nat.lt_trichotomy a b with h | h | h
      · have h2 : ¬ b < a := by omega
        simp [h, h2]
      · subst h
        simp [ih bs]
      · have h2 : ¬ a < b := by omega
        simp [h, h2]

theorem compareSymbols_trans (xs ys zs : List Nat)
    (h1 : compareSymbols xs ys ≤ 0) (h2 : compareSymbols ys zs ≤ 0) :
    compareSymbols xs zs ≤ 0 := by
  induction xs generalizing ys zs with
  | nil => cases zs <;> simp [compareSymbols]
  | cons a as ih =>
    cases ys with
    | nil => simp [compareSymbols] at h1
    | cons b bs =>
      cases zs with
      | nil => simp [compareSymbols] at h2
      | cons c cs =>
        simp only [compareSymbols] at h1 h2 ⊢
        by_cases hab : a < b
        · by_cases hbc : b < c
          · have : a < c := by omega
            simp [this]
          · by_cases hcb : c < b
            · simp [hbc, hcb] at h2
            · have : a < c := by omega
              simp [this]
        · by_cases hba : b < a
          · simp [hab, hba] at h1
          · have hab2 : a = b := by omega
            subst hab2
            simp only [hab, if_false] at h1
            by_cases hac : a < c
            · simp [hac]
            · by_cases hca : c < a
              · simp [hac, hca] at h2
              · simp only [hac, hca, if_false] at h2 ⊢
                exact ih bs cs h1 h2

theorem compareSymbols_self (xs : List Nat) : compareSymbols xs xs = 0 := by
  induction xs with
  | nil => rfl
  | cons a as ih => simp [compareSymbols, ih]

/-- A negative result is the strict lexicographic order of lists, in which a
proper initial segment comes first. -/
theorem compareSymbols_neg_iff (xs ys : List Nat) :
    compareSymbols xs ys < 0 ↔ List.Lex (fun a b => a < b) xs ys := by
  induction xs generalizing ys with
  | nil =>
    cases ys with
    | nil => simp [compareSymbols]
    | cons b bs => simp [compareSymbols, List.Lex.nil]
  | cons a as ih =>
    cases ys with
    | nil => simp [compareSymbols]
    | cons b bs =>
      simp only [compareSymbols]
      rcases Nat.lt_trichotomy a b with h | h | h
      · simp only [h, if_true]
        exact ⟨fun _ => List.Lex.rel h, fun _ => by decide⟩
      · subst h
        simp only [Nat.lt_irrefl, if_false]
        rw [ih bs]
        constructor
        · exact fun hl => List.Lex.cons hl
        · intro hl
          cases hl with
          | cons hl => exact hl
          | rel hr => exact absurd hr (Nat.lt_irrefl _)
      · have h2 : ¬ a < b := by omega
        simp only [h2, h, if_false, if_true]
        constructor
        · intro hc
          exact absurd hc (by decide)
        · intro hl
          cases hl with
          | cons hl => exact absurd h (Nat.lt_irrefl _)
          | rel hr => exact absurd hr h2

theorem compareSymbols_eq_zero_iff (xs ys : List Nat) :
    compareSymbols xs ys = 0 ↔ xs = ys := by
  induction xs generalizing ys with
  | nil => cases ys <;> simp [compareSymbols]
  | cons a as ih =>
    cases ys with
    | nil => simp [compareSymbols]
    | cons b bs =>
      simp only [compareSymbols]
      rcases Nat.lt_trichotomy a b with h | h | h
      · have : a ≠ b := by omega
        simp [h, this]
      · subst h
        simp [ih bs]
      · have h2 : ¬ a < b := by omega
        have : a ≠ b := by omega
        simp [h, h2, this]

/-- A suffix that is a proper initial segment of another compares strictly
smaller. -/
theorem compareSymbols_append (xs t : List Nat) (ht : t ≠ []) :
    compareSymbols xs (xs ++ t) < 0 := by
  induction xs with
  | nil =>
    cases t with
    | nil => exact absurd rfl ht
    | cons b bs => simp [compareSymbols]
  | cons a as ih => simpa [compareSymbols] using ih

/-! ## The sort: lemmas -/

theorem mergeBy_eq_merge (le : Nat → Nat → Bool) (fuel : Nat) (xs ys : List Nat)
    (h : xs.length + ys.length ≤ fuel) : mergeBy le fuel xs ys = List.merge xs ys le := by
  induction fuel generalizing xs ys with
  | zero =>
    have hx : xs = [] := List.eq_nil_of_length_eq_zero (by omega)
    have hy : ys = [] := List.eq_nil_of_length_eq_zero (by omega)
    subst hx hy
    simp [mergeBy, List.merge]
  | succ fuel ih =>
    cases xs with
    | nil => simp [mergeBy]
    | cons x xs =>
      cases ys with
      | nil => simp [mergeBy]
      | cons y ys =>
        simp only [List.length_cons] at h
        simp only [mergeBy, List.merge]
        by_cases hle : le x y = true
        · rw [if_pos hle, if_pos hle, ih xs (y :: ys) (by simp only [List.length_cons]; omega)]
        · rw [if_neg hle, if_neg hle, ih (x :: xs) ys (by simp only [List.length_cons]; omega)]

theorem sortBy_perm (le : Nat → Nat → Bool) (fuel : Nat) (l : List Nat) :
    (sortBy le fuel l).Perm l := by
  induction fuel generalizing l with
  | zero => exact List.Perm.refl _
  | succ fuel ih =>
    rw [sortBy]
    split
    · exact List.Perm.refl _
    · have h1 := ih (l.take ((l.length + 1) / 2))
      have h2 := ih (l.drop ((l.length + 1) / 2))
      have hlen : (sortBy le fuel (l.take ((l.length + 1) / 2))).length +
          (sortBy le fuel (l.drop ((l.length + 1) / 2))).length ≤ l.length := by
        rw [h1.length_eq, h2.length_eq, ← List.length_append, List.take_append_drop]
      rw [mergeBy_eq_merge le _ _ _ hlen]
      refine (List.merge_perm_append le).trans ?_
      have := List.Perm.append h1 h2
      rwa [List.take_append_drop] at this

theorem sortBy_sorted (le : Nat → Nat → Bool)
    (trans : ∀ a b c : Nat, le a b = true → le b c = true → le a c = true)
    (total : ∀ a b : Nat, (le a b || le b a) = true)
    (fuel : Nat) (l : List Nat) (hfuel : l.length ≤ fuel + 1) :
    (sortBy le fuel l).Pairwise (fun a b => le a b = true) := by
  induction fuel generalizing l with
  | zero =>
    cases l with
    | nil => simp [sortBy]
    | cons a l =>
      have : l = [] :=
        List.eq_nil_of_length_eq_zero (by simp only [List.length_cons] at hfuel; omega)
      subst this
      simp [sortBy]
  | succ fuel ih =>
    rw [sortBy]
    split
    · rename_i hshort
      cases l with
      | nil => simp
      | cons a l =>
        have : l = [] :=
          List.eq_nil_of_length_eq_zero (by simp only [List.length_cons] at hshort; omega)
        subst this
        simp
    · rename_i hlong
      have h1 := ih (l.take ((l.length + 1) / 2)) (by rw [List.length_take]; omega)
      have h2 := ih (l.drop ((l.length + 1) / 2)) (by rw [List.length_drop]; omega)
      have p1 := sortBy_perm le fuel (l.take ((l.length + 1) / 2))
      have p2 := sortBy_perm le fuel (l.drop ((l.length + 1) / 2))
      have hlen : (sortBy le fuel (l.take ((l.length + 1) / 2))).length +
          (sortBy le fuel (l.drop ((l.length + 1) / 2))).length ≤ l.length := by
        rw [p1.length_eq, p2.length_eq, ← List.length_append, List.take_append_drop]
      rw [mergeBy_eq_merge le _ _ _ hlen]
      exact List.sorted_merge trans total _ _ h1 h2

theorem suffixAt_sort (suf : suffixarray_t) (pos : Nat) :
    suffixAt (suffixarray_sort suf) pos = suffixAt suf pos := rfl

theorem suffixarray_compare_sort (suf : suffixarray_t) (a b : Nat) :
    suffixarray_compare (suffixarray_sort suf) a b = suffixarray_compare suf a b := rfl

/-- The entries in use after the sort are the sorted identity permutation. -/
theorem suffixArray_sort (suf : suffixarray_t) :
    suffixArray (suffixarray_sort suf) =
      sortBy (fun a b => decide (suffixarray_compare suf a b ≤ 0)) suf.used
        (List.range suf.used) := by
  have hlen : (sortBy (fun a b => decide (suffixarray_compare suf a b ≤ 0)) suf.used
      (List.range suf.used)).length = suf.used := by
    rw [(sortBy_perm _ _ _).length_eq, List.length_range]
  simp only [suffixArray, suffixarray_sort]
  rw [List.take_append_of_le_length (by omega), List.take_of_length_le (by omega)]

theorem suffixArray_sort_pairwise (suf : suffixarray_t) :
    (suffixArray (suffixarray_sort suf)).Pairwise
      (fun a b => suffixarray_compare suf a b ≤ 0) := by
  rw [suffixArray_sort]
  have h := sortBy_sorted (fun a b => decide (suffixarray_compare suf a b ≤ 0))
    (by
      intro a b c hab hbc
      simp only [decide_eq_true_eq] at hab hbc ⊢
      exact compareSymbols_trans _ _ _ hab hbc)
    (by
      intro a b
      simp only [Bool.or_eq_true, decide_eq_true_eq]
      have := compareSymbols_flip (suffixAt suf a) (suffixAt suf b)
      unfold suffixarray_compare
      omega)
    suf.used (List.range suf.used) (by simp)
  exact h.imp (fun hab => by simpa using hab)

/-! ## The engine: comparison and sort, the claims -/

/-- C1: after `suffixarray_sort` the suffix array is non-decreasing under
`suffixarray_compare`: any two adjacent entries `a = suffix[i]`,
`b = suffix[i+1]` with `i + 1 < used` exist and satisfy
`suffixarray_compare(suf, a, b) ≤ 0`. -/
theorem suffixarray_sort_sorted (suf : suffixarray_t) (i : Nat)
    (h : i + 1 < (suffixarray_sort suf).used) :
    ∃ a b, (suffixarray_sort suf).suffix[i]? = some a
      ∧ (suffixarray_sort suf).suffix[i + 1]? = some b
      ∧ suffixarray_compare (suffixarray_sort suf) a b ≤ 0 := by
  have hused : (suffixarray_sort suf).used = suf.used := rfl
  have hlen : (suffixArray (suffixarray_sort suf)).length = suf.used := by
    rw [suffixArray_sort, (sortBy_perm _ _ _).length_eq, List.length_range]
  have hpw := suffixArray_sort_pairwise suf
  rw [List.pairwise_iff_getElem] at hpw
  have hi : i < (suffixArray (suffixarray_sort suf)).length := by omega
  have hj : i + 1 < (suffixArray (suffixarray_sort suf)).length := by omega
  refine ⟨(suffixArray (suffixarray_sort suf))[i], (suffixArray (suffixarray_sort suf))[i + 1],
    ?_, ?_, ?_⟩
  · rw [← List.getElem?_eq_getElem hi]
    have hlt : i < (suffixarray_sort suf).used := by omega
    exact (List.getElem?_take_of_lt hlt).symm
  · rw [← List.getElem?_eq_getElem hj]
    exact (List.getElem?_take_of_lt h).symm
  · rw [suffixarray_compare_sort]
    exact hpw i (i + 1) hi hj (by omega)

/-- C1 on the corpus `the cat the dog`, at the first pair of entries. -/
theorem suffixarray_sort_sorted_witness :
    ∃ a b,
      (suffixarray_sort (["the".toList, "cat".toList, "the".toList, "dog".toList].foldl
        suffixarray_append_word make_suffixarray)).suffix[0]? = some a
      ∧ (suffixarray_sort (["the".toList, "cat".toList, "the".toList, "dog".toList].foldl
        suffixarray_append_word make_suffixarray)).suffix[0 + 1]? = some b
      ∧ suffixarray_compare
        (suffixarray_sort (["the".toList, "cat".toList, "the".toList, "dog".toList].foldl
          suffixarray_append_word make_suffixarray)) a b ≤ 0 :=
  suffixarray_sort_sorted
    (["the".toList, "cat".toList, "the".toList, "dog".toList].foldl
      suffixarray_append_word make_suffixarray) 0 (by decide)

/-- C2: after `suffixarray_sort` on a corpus of `n = used` entries the suffix
array has exactly `n` entries and is a permutation of `[0, n)`: every corpus
position appears exactly once. The corpus and `used` are unchanged. -/
theorem suffixarray_sort_permutation (suf : suffixarray_t) :
    (suffixarray_sort suf).used = suf.used
    ∧ encodedCorpus (suffixarray_sort suf) = encodedCorpus suf
    ∧ (suffixArray (suffixarray_sort suf)).length = suf.used
    ∧ (suffixArray (suffixarray_sort suf)).Perm (List.range suf.used)
    ∧ ∀ pos, pos < suf.used → (suffixArray (suffixarray_sort suf)).count pos = 1 := by
  have hperm : (suffixArray (suffixarray_sort suf)).Perm (List.range suf.used) := by
    rw [suffixArray_sort]
    exact sortBy_perm _ _ _
  refine ⟨rfl, rfl, ?_, hperm, ?_⟩
  · rw [hperm.length_eq, List.length_range]
  · intro pos hpos
    rw [hperm.count_eq]
    exact List.count_eq_one_of_mem (List.nodup_range _) (List.mem_range.2 hpos)

/-- C3: `suffixarray_compare` is the lexicographic comparison of the two
suffixes, the end of the corpus counting as smaller than every symbol: the
result is negative, zero or positive as the suffix at `pos1` is
lexicographically before, equal to or after the suffix at `pos2`; and when the
suffix at `pos1` is a proper initial segment of the suffix at `pos2`, the
shorter one compares strictly smaller, in both argument orders. -/
theorem suffixarray_compare_lex (suf : suffixarray_t) (pos1 pos2 : Nat) (t : List Nat)
    (ht : t ≠ []) (hpre : suffixAt suf pos2 = suffixAt suf pos1 ++ t) :
    suffixarray_compare suf pos1 pos2 < 0
    ∧ 0 < suffixarray_compare suf pos2 pos1
    ∧ (∀ p q, suffixarray_compare suf p q < 0 ↔
        List.Lex (fun a b => a < b) (suffixAt suf p) (suffixAt suf q))
    ∧ (∀ p q, suffixarray_compare suf p q = 0 ↔ suffixAt suf p = suffixAt suf q)
    ∧ (∀ p q, suffixarray_compare suf q p = - suffixarray_compare suf p q) := by
  have h1 : suffixarray_compare suf pos1 pos2 < 0 := by
    unfold suffixarray_compare
    rw [hpre]
    exact compareSymbols_append _ t ht
  have hflip : ∀ p q, suffixarray_compare suf q p = - suffixarray_compare suf p q :=
    fun p q => compareSymbols_flip _ _
  refine ⟨h1, ?_, fun p q => compareSymbols_neg_iff _ _,
    fun p q => compareSymbols_eq_zero_iff _ _, hflip⟩
  rw [hflip pos1 pos2]
  omega

/-- C3 on the corpus of codes `[3, 3]`: the suffix at position 1 is `[3]`, a
proper initial segment of the suffix `[3, 3]` at position 0, so
`compare(1, 0) < 0` and `compare(0, 1) > 0`. -/
theorem suffixarray_compare_lex_witness :
    suffixarray_compare
        { corpus := [3, 3], suffix := [0, 0], symboltable := { names := [] },
          allocated := 2, used := 2 } 1 0 < 0
    ∧ 0 < suffixarray_compare
        { corpus := [3, 3], suffix := [0, 0], symboltable := { names := [] },
          allocated := 2, used := 2 } 0 1 :=
  ⟨(suffixarray_compare_lex
      { corpus := [3, 3], suffix := [0, 0], symboltable := { names := [] },
        allocated := 2, used := 2 } 1 0 [3] (by decide) (by decide)).1,
   (suffixarray_compare_lex
      { corpus := [3, 3], suffix := [0, 0], symboltable := { names := [] },
        allocated := 2, used := 2 } 1 0 [3] (by decide) (by decide)).2.1⟩

/-! ## The engine: appending words -/

theorem getElem?_codeOf (w : List Char) (names : List (List Char)) (h : w ∈ names) :
    names[codeOf w names]? = some w := by
  induction names with
  | nil => simp at h
  | cons x xs ih =>
    by_cases hx : x = w
    · simp [codeOf, hx]
    · have hmem : w ∈ xs := by
        rcases List.mem_cons.1 h with h1 | h1
        · exact absurd h1.symm hx
        · exact h1
      simp [codeOf, hx, ih hmem]

theorem intern_spec (t : symboltable_t) (w : List Char) (hnd : t.names.Nodup) :
    (intern t w).2.names.Nodup
    ∧ (∀ (c : Nat) (x : List Char), t.names[c]? = some x → (intern t w).2.names[c]? = some x)
    ∧ (intern t w).2.names[(intern t w).1]? = some w := by
  by_cases h : w ∈ t.names
  · simp only [intern, h, if_true]
    exact ⟨hnd, fun c x hx => hx, getElem?_codeOf w t.names h⟩
  · simp only [intern, h, if_false]
    refine ⟨?_, ?_, ?_⟩
    · rw [List.nodup_append]
      refine ⟨hnd, List.nodup_singleton w, ?_⟩
      intro a ha hb
      rw [List.mem_singleton] at hb
      subst hb
      exact h ha
    · intro c x hx
      have hc : c < t.names.length := by
        by_contra hge
        rw [List.getElem?_eq_none (by omega)] at hx
        exact Option.noConfusion hx
      rw [List.getElem?_append_left hc]
      exact hx
    · simp

theorem Encodes_make : Encodes make_suffixarray [] := by
  refine ⟨rfl, by decide, by decide, by decide, by simp [make_suffixarray], ?_⟩
  intro i w h
  simp at h

/-- The state after an append, written out: the buffers after the growth step
(if any) with the new code stored at position `used`. -/
theorem suffixarray_append_word_eq (suf : suffixarray_t) (w : List Char) :
    suffixarray_append_word suf w =
      { corpus := (if suf.allocated ≤ suf.used then suf.corpus ++ List.replicate suf.allocated 0
            else suf.corpus).set suf.used (intern suf.symboltable w).1
        suffix := if suf.allocated ≤ suf.used then suf.suffix ++ List.replicate suf.allocated 0
            else suf.suffix
        symboltable := (intern suf.symboltable w).2
        allocated := if suf.allocated ≤ suf.used then 2 * suf.allocated else suf.allocated
        used := suf.used + 1 } := by
  by_cases h : suf.allocated ≤ suf.used <;> simp [suffixarray_append_word, h, grow]

theorem Encodes_append (suf : suffixarray_t) (ws : List (List Char)) (w : List Char)
    (h : Encodes suf ws) : Encodes (suffixarray_append_word suf w) (ws ++ [w]) := by
  obtain ⟨hu, hle, hlen, hpos, hnd, hres⟩ := h
  obtain ⟨ind, iold, inew⟩ := intern_spec suf.symboltable w hnd
  rw [suffixarray_append_word_eq]
  have hcap : suf.used < (if suf.allocated ≤ suf.used
      then suf.corpus ++ List.replicate suf.allocated 0 else suf.corpus).length := by
    split
    · rw [List.length_append, List.length_replicate]; omega
    · omega
  have hkeep : ∀ i, i < suf.used → (if suf.allocated ≤ suf.used
      then suf.corpus ++ List.replicate suf.allocated 0 else suf.corpus)[i]? = suf.corpus[i]? := by
    intro i hi
    split
    · exact List.getElem?_append_left (by omega)
    · rfl
  refine ⟨?_, ?_, ?_, ?_, ind, ?_⟩
  · show suf.used + 1 = (ws ++ [w]).length
    rw [List.length_append, hu]; rfl
  · show suf.used + 1 ≤ (if suf.allocated ≤ suf.used then 2 * suf.allocated else suf.allocated)
    split <;> omega
  · show ((if suf.allocated ≤ suf.used then suf.corpus ++ List.replicate suf.allocated 0
        else suf.corpus).set suf.used (intern suf.symboltable w).1).length =
      (if suf.allocated ≤ suf.used then 2 * suf.allocated else suf.allocated)
    rw [List.length_set]
    split
    · rw [List.length_append, List.length_replicate]; omega
    · exact hlen
  · show 0 < (if suf.allocated ≤ suf.used then 2 * suf.allocated else suf.allocated)
    split <;> omega
  · intro i x hx
    show ∃ code, ((if suf.allocated ≤ suf.used then suf.corpus ++ List.replicate suf.allocated 0
        else suf.corpus).set suf.used (intern suf.symboltable w).1)[i]? = some code ∧
      (intern suf.symboltable w).2.names[code]? = some x
    by_cases hi : i < ws.length
    · rw [List.getElem?_append_left hi] at hx
      obtain ⟨code, hc, hr⟩ := hres i x hx
      refine ⟨code, ?_, iold code x hr⟩
      rw [List.getElem?_set_ne (by omega), hkeep i (by omega)]
      exact hc
    · have hi2 : i = ws.length := by
        by_contra hne
        rw [List.getElem?_eq_none (by rw [List.length_append]; simp; omega)] at hx
        exact Option.noConfusion hx
      subst hi2
      rw [List.getElem?_append_right (Nat.le_refl _)] at hx
      simp at hx
      subst hx
      refine ⟨(intern suf.symboltable w).1, ?_, inew⟩
      rw [← hu, List.getElem?_set_self hcap]

theorem Encodes_foldl (ws : List (List Char)) :
    Encodes (ws.foldl suffixarray_append_word make_suffixarray) ws := by
  induction ws using List.reverseRecOn with
  | nil => exact Encodes_make
  | append_singleton ws w ih =>
    rw [List.foldl_append]
    exact Encodes_append _ ws w ih

/-- C4: after `suffixarray_append_word` was called once per word, in order, on
a fresh suffix array from `make_suffixarray`, `used` is the number of words and
the symbol table resolves the code at every corpus position back to the word
appended there; so two positions hold the same code exactly when they hold the
same word. -/
theorem append_word_decodes (words : List (List Char)) :
    (words.foldl suffixarray_append_word make_suffixarray).used = words.length
    ∧ (encodedCorpus (words.foldl suffixarray_append_word make_suffixarray)).length
        = words.length
    ∧ (∀ (i : Nat) (w : List Char), words[i]? = some w →
        ∃ code,
          (encodedCorpus (words.foldl suffixarray_append_word make_suffixarray))[i]? = some code
          ∧ resolve (words.foldl suffixarray_append_word make_suffixarray).symboltable code
              = some w)
    ∧ (∀ (i j : Nat) (wi wj : List Char) (ci cj : Nat),
        words[i]? = some wi → words[j]? = some wj →
        (encodedCorpus (words.foldl suffixarray_append_word make_suffixarray))[i]? = some ci →
        (encodedCorpus (words.foldl suffixarray_append_word make_suffixarray))[j]? = some cj →
        (ci = cj ↔ wi = wj)) := by
  obtain ⟨hu, hle, hlen, hpos, hnd, hres⟩ := Encodes_foldl words
  have hin : ∀ (i : Nat) (w : List Char), words[i]? = some w → i < words.length := by
    intro i w hw
    by_contra hge
    rw [List.getElem?_eq_none (by omega)] at hw
    exact Option.noConfusion hw
  have htake : ∀ (i : Nat), i < words.length →
      (encodedCorpus (words.foldl suffixarray_append_word make_suffixarray))[i]? =
        (words.foldl suffixarray_append_word make_suffixarray).corpus[i]? := by
    intro i hi
    unfold encodedCorpus
    exact List.getElem?_take_of_lt (by omega)
  refine ⟨hu, ?_, ?_, ?_⟩
  · unfold encodedCorpus
    rw [List.length_take]
    omega
  · intro i w hw
    obtain ⟨code, hc, hr⟩ := hres i w hw
    exact ⟨code, by rw [htake i (hin i w hw)]; exact hc, hr⟩
  · intro i j wi wj ci cj hwi hwj hci hcj
    obtain ⟨c1, hc1, hr1⟩ := hres i wi hwi
    obtain ⟨c2, hc2, hr2⟩ := hres j wj hwj
    rw [htake i (hin i wi hwi), hc1] at hci
    rw [htake j (hin j wj hwj), hc2] at hcj
    have e1 : c1 = ci := Option.some.inj hci
    have e2 : c2 = cj := Option.some.inj hcj
    rw [e1] at hr1
    rw [e2] at hr2
    unfold resolve at hr1 hr2
    constructor
    · intro he
      rw [he, hr2] at hr1
      exact (Option.some.inj hr1).symm
    · intro he
      subst he
      have hlt : ci < (words.foldl suffixarray_append_word
          make_suffixarray).symboltable.names.length := by
        by_contra hge
        rw [List.getElem?_eq_none (by omega)] at hr1
        exact Option.noConfusion hr1
      exact List.getElem?_inj hlt hnd (hr1.trans hr2.symm)

/-- The end-to-end scenario of the specification: the words `the`, `cat`,
`the`, `dog` give a corpus of four codes with `the` encoded alike at positions
0 and 2, a symbol table of three entries, and after the sort a suffix array
that is a permutation of the four positions. -/
theorem the_cat_the_dog :
    encodedCorpus (["the".toList, "cat".toList, "the".toList, "dog".toList].foldl
        suffixarray_append_word make_suffixarray) = [0, 1, 0, 2]
    ∧ (["the".toList, "cat".toList, "the".toList, "dog".toList].foldl
        suffixarray_append_word make_suffixarray).symboltable.names
        = ["the".toList, "cat".toList, "dog".toList]
    ∧ suffixArray (suffixarray_sort
        (["the".toList, "cat".toList, "the".toList, "dog".toList].foldl
          suffixarray_append_word make_suffixarray)) = [0, 2, 1, 3] := by
  decide

/-! ## The engine: the persisted format -/

theorem encodeWord_length (width n : Nat) : (encodeWord width n).length = width := by
  induction width generalizing n with
  | zero => rfl
  | succ width ih => simp [encodeWord, ih]

theorem decodeWord_encodeWord (width n : Nat) :
    decodeWord (encodeWord width n) = n % 256 ^ width := by
  induction width generalizing n with
  | zero => simp [encodeWord, decodeWord, Nat.mod_one]
  | succ width ih =>
    simp only [encodeWord, decodeWord, ih]
    rw [Nat.pow_succ, Nat.mul_comm (256 ^ width) 256, Nat.mod_mul]

theorem decodeWord_encodeWord_of_lt (n : Nat) (h : n < 2 ^ (8 * WORD_BYTES)) :
    decodeWord (encodeWord WORD_BYTES n) = n := by
  rw [decodeWord_encodeWord]
  apply Nat.mod_eq_of_lt
  have : (256 : Nat) ^ WORD_BYTES = 2 ^ (8 * WORD_BYTES) := by decide
  omega

theorem decodeValues_encodeValues (xs rest : List Nat)
    (h : ∀ x ∈ xs, x < 2 ^ (8 * WORD_BYTES)) :
    decodeValues xs.length (encodeValues xs ++ rest) = some xs := by
  induction xs with
  | nil => rfl
  | cons x xs ih =>
    have hx : x < 2 ^ (8 * WORD_BYTES) := h x (by simp)
    have hxs : ∀ y ∈ xs, y < 2 ^ (8 * WORD_BYTES) := fun y hy => h y (by simp [hy])
    have hlen : (encodeWord WORD_BYTES x).length = WORD_BYTES := encodeWord_length _ _
    have hnot : ¬ (encodeValues (x :: xs) ++ rest).length < WORD_BYTES := by
      simp only [encodeValues, List.length_append, hlen]
      omega
    have htake : (encodeValues (x :: xs) ++ rest).take WORD_BYTES = encodeWord WORD_BYTES x := by
      simp only [encodeValues, List.append_assoc]
      rw [List.take_append_of_le_length (by omega), List.take_of_length_le (by omega)]
    have hdrop : (encodeValues (x :: xs) ++ rest).drop WORD_BYTES = encodeValues xs ++ rest := by
      simp only [encodeValues, List.append_assoc]
      rw [List.drop_append_of_le_length (by omega), List.drop_of_length_le (by omega)]
      rfl
    simp only [List.length_cons, decodeValues, hnot, if_false, htake, hdrop, ih hxs,
      decodeWord_encodeWord_of_lt x hx]

/-- An array that was written reads back as its entries in use. -/
theorem readArray_writeArray (used : Nat) (buffer : List Nat)
    (hused : used < 2 ^ (8 * WORD_BYTES)) (hcap : used ≤ buffer.length)
    (hvals : ∀ x ∈ buffer.take used, x < 2 ^ (8 * WORD_BYTES)) :
    readArray (writeArray used buffer) = Except.ok (buffer.take used) := by
  have hlen : (encodeWord WORD_BYTES used).length = WORD_BYTES := encodeWord_length _ _
  have hnot : ¬ (writeArray used buffer).length < WORD_BYTES := by
    simp only [writeArray, List.length_append, hlen]
    omega
  have htake : (writeArray used buffer).take WORD_BYTES = encodeWord WORD_BYTES used := by
    unfold writeArray
    rw [List.take_append_of_le_length (by omega), List.take_of_length_le (by omega)]
  have hdrop : (writeArray used buffer).drop WORD_BYTES = encodeValues (buffer.take used) := by
    unfold writeArray
    rw [List.drop_append_of_le_length (by omega), List.drop_of_length_le (by omega)]
    rfl
  have hcount : (buffer.take used).length = used := by
    rw [List.length_take]; omega
  have hdec := decodeValues_encodeValues (buffer.take used) [] hvals
  rw [List.append_nil, hcount] at hdec
  simp only [readArray, hnot, if_false, htake, hdrop, decodeWord_encodeWord_of_lt used hused, hdec]

/-- C5: round trip. `write_suffix_array` followed by `read_suffix_array` on the
bytes written yields a state with the same `used` count, the same corpus
contents and the same suffix-array contents, in the same order. The counts and
entries are machine integers of the width of the format, and `used` is within
the two buffers. -/
theorem write_read_roundtrip (suf dst : suffixarray_t)
    (hused : suf.used < 2 ^ (8 * WORD_BYTES))
    (hcorpus : suf.used ≤ suf.corpus.length) (hsuffix : suf.used ≤ suf.suffix.length)
    (hcodes : ∀ x ∈ encodedCorpus suf, x < 2 ^ (8 * WORD_BYTES))
    (hpositions : ∀ x ∈ suffixArray suf, x < 2 ^ (8 * WORD_BYTES)) :
    ∃ back,
      read_suffix_array dst (write_suffix_array suf).1 (write_suffix_array suf).2
        = Except.ok back
      ∧ back.used = suf.used
      ∧ encodedCorpus back = encodedCorpus suf
      ∧ suffixArray back = suffixArray suf
      ∧ back.corpus = encodedCorpus suf
      ∧ back.suffix = suffixArray suf
      ∧ back.symboltable = dst.symboltable := by
  have h1 := readArray_writeArray suf.used suf.corpus hused hcorpus hcodes
  have h2 := readArray_writeArray suf.used suf.suffix hused hsuffix hpositions
  have hl1 : (suf.corpus.take suf.used).length = suf.used := by
    rw [List.length_take]; omega
  have hl2 : (suf.suffix.take suf.used).length = suf.used := by
    rw [List.length_take]; omega
  refine ⟨{ corpus := suf.corpus.take suf.used
            suffix := suf.suffix.take suf.used
            symboltable := dst.symboltable
            allocated := suf.used
            used := suf.used }, ?_, rfl, ?_, ?_, rfl, rfl, rfl⟩
  · simp only [read_suffix_array, write_suffix_array, h1, h2, hl1, hl2, if_true]
  · simp only [encodedCorpus]
    rw [List.take_of_length_le (by omega)]
  · simp only [suffixArray]
    rw [List.take_of_length_le (by omega)]

/-- C5 on the sorted index of `the cat the dog`, read into a fresh engine. -/
theorem write_read_roundtrip_witness :
    ∃ back,
      read_suffix_array make_suffixarray
        (write_suffix_array (suffixarray_sort
          (["the".toList, "cat".toList, "the".toList, "dog".toList].foldl
            suffixarray_append_word make_suffixarray))).1
        (write_suffix_array (suffixarray_sort
          (["the".toList, "cat".toList, "the".toList, "dog".toList].foldl
            suffixarray_append_word make_suffixarray))).2
        = Except.ok back
      ∧ back.used = 4
      ∧ encodedCorpus back = [0, 1, 0, 2]
      ∧ suffixArray back = [0, 2, 1, 3] := by
  obtain ⟨back, h, hu, hc, hs, _⟩ := write_read_roundtrip
    (suffixarray_sort (["the".toList, "cat".toList, "the".toList, "dog".toList].foldl
      suffixarray_append_word make_suffixarray)) make_suffixarray
    (by decide) (by decide) (by decide) (by decide) (by decide)
  exact ⟨back, h, hu.trans (by decide), hc.trans (by decide), hs.trans (by decide)⟩

end Mwetoolkit
